import Mathlib

set_option maxHeartbeats 1000000

/-!
Verification of the JSON tree-visualizer engine (src/src/App.jsx).

The engine is shallowly embedded: JSON values become the inductive
`JsonValue` (JS numbers are modelled as integers — no claim depends on
fractional numerics), JS objects become ordered association lists (JS
object keys are pairwise distinct, which is captured by an explicit
well-formedness predicate where a claim needs it), and each of the
source functions `detectType`, `buildTree`, `computeWidths`,
`layoutTree`, `mapToFlow`, `parsePath`, `findByPath` and the `onSearch`
handler is translated into a Lean function of the same name.
-/

namespace JsonViz

/-- A parsed JSON value.  Numbers are modelled as integers. -/
inductive JsonValue where
  | null
  | bool (b : Bool)
  | num (n : Int)
  | str (s : String)
  | arr (elems : List JsonValue)
  | obj (entries : List (String × JsonValue))

/-- The three node kinds distinguished by the engine. -/
inductive JKind where
  | object
  | array
  | primitive
deriving DecidableEq

/-- `detectType` (App.jsx 25-29): arrays, then non-null objects, else primitive. -/
def detectType : JsonValue → JKind
  | .arr _ => .array
  | .obj _ => .object
  | _ => .primitive

/-- A tree node as built by `buildTree`: id, key, type, value, children. -/
inductive JNode where
  | mk (id key : String) (type : JKind) (value : JsonValue) (children : List JNode)

@[simp] def JNode.id : JNode → String
  | .mk i _ _ _ _ => i

@[simp] def JNode.key : JNode → String
  | .mk _ k _ _ _ => k

@[simp] def JNode.type : JNode → JKind
  | .mk _ _ t _ _ => t

@[simp] def JNode.value : JNode → JsonValue
  | .mk _ _ _ v _ => v

@[simp] def JNode.children : JNode → List JNode
  | .mk _ _ _ _ cs => cs

mutual

/-- Child expansion of `buildTree` (App.jsx 49-67).  The source drives the
expansion with an explicit stack; the children list attached to each node is
built in source order either way, so the expansion is written as the
equivalent structural recursion. -/
def buildChildren (path : String) (v : JsonValue) : List JNode :=
  match v with
  | .obj kvs => buildObjChildren path kvs
  | .arr vs => buildArrChildren path 0 vs
  | _ => []

/-- Object branch (App.jsx 51-58): one child per key, id `path ++ "." ++ k`. -/
def buildObjChildren (path : String) (kvs : List (String × JsonValue)) : List JNode :=
  match kvs with
  | [] => []
  | (k, cv) :: rest =>
    JNode.mk (path ++ "." ++ k) k (detectType cv) cv (buildChildren (path ++ "." ++ k) cv)
      :: buildObjChildren path rest

/-- Array branch (App.jsx 59-66): one child per index, id `path ++ "[" ++ i ++ "]"`. -/
def buildArrChildren (path : String) (i : Nat) (vs : List JsonValue) : List JNode :=
  match vs with
  | [] => []
  | cv :: rest =>
    JNode.mk (path ++ "[" ++ Nat.repr i ++ "]") (Nat.repr i) (detectType cv) cv
        (buildChildren (path ++ "[" ++ Nat.repr i ++ "]") cv)
      :: buildArrChildren path (i + 1) rest

end

/-- `buildTree` (App.jsx 31-69): the root starts as `$`; an object root with
exactly one key is collapsed onto that key before the children are expanded. -/
def buildTree (data : JsonValue) (rootKey : String) : JNode :=
  match data with
  | .obj [(k, v)] =>
    JNode.mk ("$." ++ k) k (detectType v) v (buildChildren ("$." ++ k) v)
  | _ =>
    JNode.mk "$" rootKey (detectType data) data (buildChildren "$" data)

/-- Whether `buildTree` collapses the root (object with exactly one key). -/
def collapses : JsonValue → Bool
  | .obj [_] => true
  | _ => false

mutual

/-- All nodes of a tree: the node itself and, recursively, its descendants. -/
def subnodes : JNode → List JNode
  | .mk i k t v cs => .mk i k t v cs :: subnodesList cs

def subnodesList : List JNode → List JNode
  | [] => []
  | c :: rest => subnodes c ++ subnodesList rest

end

mutual

/-- `computeWidths` (App.jsx 71-82): a childless node has width `1`, any
other node has width `max 1 (sum of children widths)`.  The source stores
the width on the node; here the same number is recomputed on demand. -/
def computeWidths : JNode → Nat
  | .mk _ _ _ _ cs =>
    match cs with
    | [] => 1
    | _ => max 1 (sumWidths cs)

/-- The loop of App.jsx 76-79: sum of the children's widths. -/
def sumWidths : List JNode → Nat
  | [] => 0
  | c :: rest => computeWidths c + sumWidths rest

end

theorem mem_subnodesList {q : JNode} :
    ∀ {ns : List JNode}, q ∈ subnodesList ns ↔ ∃ c ∈ ns, q ∈ subnodes c := by
  intro ns
  induction ns with
  | nil => simp [subnodesList]
  | cons c rest ih => simp [subnodesList, ih]

theorem self_mem_subnodes (n : JNode) : n ∈ subnodes n := by
  cases n with
  | mk i k t v cs => simp [subnodes]

theorem mem_subnodes_iff {q n : JNode} :
    q ∈ subnodes n ↔ q = n ∨ ∃ c ∈ n.children, q ∈ subnodes c := by
  cases n with
  | mk i k t v cs => simp [subnodes, mem_subnodesList]

theorem one_le_computeWidths (n : JNode) : 1 ≤ computeWidths n := by
  cases n with
  | mk i k t v cs =>
    cases cs with
    | nil => simp [computeWidths]
    | cons c rest => simp [computeWidths]

theorem le_sumWidths_of_mem {c : JNode} {ns : List JNode} (h : c ∈ ns) :
    computeWidths c ≤ sumWidths ns := by
  induction ns with
  | nil => cases h
  | cons a rest ih =>
    rcases List.mem_cons.mp h with h' | h'
    · subst h'; simp [sumWidths]
    · have := ih h'
      simp [sumWidths]
      omega

theorem computeWidths_of_cons (i k : String) (t : JKind) (v : JsonValue)
    (c : JNode) (rest : List JNode) :
    computeWidths (.mk i k t v (c :: rest)) = sumWidths (c :: rest) := by
  have h1 : 1 ≤ sumWidths (c :: rest) := by
    have := one_le_computeWidths c
    simp [sumWidths]; omega
  simp [computeWidths]
  omega

/-- A node is built when its stored children, type and value agree with the
expansion `buildTree` performs: the invariant every node of a built tree has. -/
def Built (q : JNode) : Prop :=
  q.children = buildChildren q.id q.value ∧ q.type = detectType q.value

theorem built_buildTree (v : JsonValue) (rk : String) : Built (buildTree v rk) := by
  cases v with
  | obj kvs =>
    match kvs with
    | [] => exact ⟨rfl, rfl⟩
    | [(k, w)] => exact ⟨rfl, rfl⟩
    | (k, w) :: (k2, w2) :: rest => exact ⟨rfl, rfl⟩
  | null => exact ⟨rfl, rfl⟩
  | bool b => exact ⟨rfl, rfl⟩
  | num n => exact ⟨rfl, rfl⟩
  | str s => exact ⟨rfl, rfl⟩
  | arr vs => exact ⟨rfl, rfl⟩

theorem built_of_mem_buildObjChildren (path : String) :
    ∀ (kvs : List (String × JsonValue)), ∀ c ∈ buildObjChildren path kvs, Built c := by
  intro kvs
  induction kvs with
  | nil => intro c hc; simp [buildObjChildren] at hc
  | cons kv rest ih =>
    intro c hc
    obtain ⟨k, cv⟩ := kv
    rw [buildObjChildren] at hc
    rcases List.mem_cons.mp hc with h' | h'
    · subst h'; exact ⟨rfl, rfl⟩
    · exact ih c h'

theorem built_of_mem_buildArrChildren (path : String) :
    ∀ (vs : List JsonValue) (i : Nat), ∀ c ∈ buildArrChildren path i vs, Built c := by
  intro vs
  induction vs with
  | nil => intro i c hc; simp [buildArrChildren] at hc
  | cons cv rest ih =>
    intro i c hc
    rw [buildArrChildren] at hc
    rcases List.mem_cons.mp hc with h' | h'
    · subst h'; exact ⟨rfl, rfl⟩
    · exact ih (i + 1) c h'

theorem built_children {q : JNode} (hb : Built q) : ∀ c ∈ q.children, Built c := by
  intro c hc
  rw [hb.1] at hc
  cases hv : q.value with
  | obj kvs =>
    rw [hv, buildChildren] at hc
    exact built_of_mem_buildObjChildren _ _ c hc
  | arr vs =>
    rw [hv, buildChildren] at hc
    exact built_of_mem_buildArrChildren _ _ _ c hc
  | null => rw [hv] at hc; simp [buildChildren] at hc
  | bool b => rw [hv] at hc; simp [buildChildren] at hc
  | num n => rw [hv] at hc; simp [buildChildren] at hc
  | str s => rw [hv] at hc; simp [buildChildren] at hc

theorem sizeOf_lt_of_mem_children {c n : JNode} (h : c ∈ n.children) :
    sizeOf c < sizeOf n := by
  cases n with
  | mk i k t v cs =>
    have h1 : sizeOf c < sizeOf cs := List.sizeOf_lt_of_mem h
    simp only [JNode.mk.sizeOf_spec]
    omega

theorem subnodes_built (n : JNode) (hb : Built n) : ∀ q ∈ subnodes n, Built q := by
  intro q hq
  rcases mem_subnodes_iff.mp hq with h | ⟨c, hc, hq'⟩
  · subst h; exact hb
  · have := sizeOf_lt_of_mem_children hc
    exact subnodes_built c (built_children hb c hc) q hq'
termination_by sizeOf n
decreasing_by
  cases n with
  | mk i k t v cs =>
    have h2 : sizeOf c < sizeOf cs := List.sizeOf_lt_of_mem hc
    simp only [JNode.mk.sizeOf_spec]
    omega

theorem prim_no_children {q : JNode} (hb : Built q) (hp : q.type = .primitive) :
    q.children = [] := by
  rw [hb.1]
  cases hv : q.value with
  | obj kvs => rw [hb.2, hv] at hp; simp [detectType] at hp
  | arr vs => rw [hb.2, hv] at hp; simp [detectType] at hp
  | null => simp [buildChildren]
  | bool b => simp [buildChildren]
  | num n => simp [buildChildren]
  | str s => simp [buildChildren]

/-- C1: for an object root with exactly one key `k`, `buildTree` collapses the
root onto `k` (key, value, kind taken from the value at `k`, id `$.k`); for any
other root no collapse occurs and the root id is `$` with key, value and kind
taken from the input itself. -/
theorem buildTree_collapse_characterization :
    (∀ (k : String) (w : JsonValue) (rk : String),
      (buildTree (.obj [(k, w)]) rk).id = "$." ++ k ∧
      (buildTree (.obj [(k, w)]) rk).key = k ∧
      (buildTree (.obj [(k, w)]) rk).value = w ∧
      (buildTree (.obj [(k, w)]) rk).type = detectType w) ∧
    (∀ (v : JsonValue) (rk : String), collapses v = false →
      (buildTree v rk).id = "$" ∧
      (buildTree v rk).key = rk ∧
      (buildTree v rk).value = v ∧
      (buildTree v rk).type = detectType v) := by
  constructor
  · intro k w rk
    exact ⟨rfl, rfl, rfl, rfl⟩
  · intro v rk hnc
    cases v with
    | obj kvs =>
      match kvs with
      | [] => exact ⟨rfl, rfl, rfl, rfl⟩
      | [(k, w)] => simp [collapses] at hnc
      | (k, w) :: (k2, w2) :: rest => exact ⟨rfl, rfl, rfl, rfl⟩
    | null => exact ⟨rfl, rfl, rfl, rfl⟩
    | bool b => exact ⟨rfl, rfl, rfl, rfl⟩
    | num n => exact ⟨rfl, rfl, rfl, rfl⟩
    | str s => exact ⟨rfl, rfl, rfl, rfl⟩
    | arr vs => exact ⟨rfl, rfl, rfl, rfl⟩

/-- Witness for C1 at concrete inputs: `{"a": {"b": 1}}` collapses onto `a`
and the non-object root `3` keeps id `$`. -/
theorem buildTree_collapse_characterization_witness :
    collapses (.num 3) = false ∧
    (buildTree (.obj [("a", .obj [("b", .num 1)])]) "root").id = "$.a" ∧
    (buildTree (.num 3) "root").id = "$" :=
  ⟨rfl, (buildTree_collapse_characterization.1 "a" (.obj [("b", .num 1)]) "root").1,
    (buildTree_collapse_characterization.2 (.num 3) "root" rfl).1⟩

/-- C2 (amended): in a built tree every childless node has width `1`, every
node with at least one child has width equal to the sum of its children's
widths, every width is at least `1`, and every primitive node is childless
(so in particular a primitive leaf has width `1`).  The converse direction of
the claim's iff — width `1` only at primitive leaves — is false, see the
counterexample. -/
theorem computeWidths_characterization :
    ∀ (v : JsonValue) (rk : String), ∀ n ∈ subnodes (buildTree v rk),
      (n.children = [] → computeWidths n = 1) ∧
      (n.children ≠ [] → computeWidths n = sumWidths n.children) ∧
      1 ≤ computeWidths n ∧
      (n.type = .primitive → n.children = []) := by
  intro v rk n hn
  have hb : Built n := subnodes_built _ (built_buildTree v rk) n hn
  refine ⟨?_, ?_, one_le_computeWidths n, prim_no_children hb⟩
  · intro he
    cases n with
    | mk i k t w cs =>
      simp only [JNode.children] at he
      subst he
      rfl
  · intro hne
    cases n with
    | mk i k t w cs =>
      simp only [JNode.children] at hne ⊢
      cases cs with
      | nil => exact absurd rfl hne
      | cons c rest => exact computeWidths_of_cons i k t w c rest

/-- Witness for C2 (amended) at a concrete input: in the tree of
`{"x": 1, "y": 2}` the root has width `2 = 1 + 1`. -/
theorem computeWidths_characterization_witness :
    computeWidths (buildTree (.obj [("x", .num 1), ("y", .num 2)]) "root") =
      sumWidths (buildTree (.obj [("x", .num 1), ("y", .num 2)]) "root").children ∧
    computeWidths (buildTree (.obj [("x", .num 1), ("y", .num 2)]) "root") = 2 := by
  constructor
  · exact (computeWidths_characterization (.obj [("x", .num 1), ("y", .num 2)]) "root"
      _ (self_mem_subnodes _)).2.1 (by simp [buildTree, buildChildren, buildObjChildren])
  · rfl

/-- Counterexample to C2 as stated: the tree built from the empty object `{}`
consists of a single node whose width is `1` but whose kind is `object`, not
`primitive` — so `width(node) == 1` does not imply that the node is a
primitive leaf. -/
theorem computeWidths_one_not_primitive_cex :
    buildTree (.obj []) "root" ∈ subnodes (buildTree (.obj []) "root") ∧
    computeWidths (buildTree (.obj []) "root") = 1 ∧
    (buildTree (.obj []) "root").type ≠ JKind.primitive :=
  ⟨self_mem_subnodes _, rfl, by decide⟩

/-- Horizontal gap per unit of width (App.jsx 22). -/
def H_GAP : Int := 200

/-- Vertical gap per depth level (App.jsx 23). -/
def V_GAP : Int := 110

/-- A tree node after layout: the fields of `JNode` plus the width stored by
`computeWidths` and the position assigned by `layoutTree`. -/
inductive PNode where
  | mk (id key : String) (type : JKind) (value : JsonValue) (width : Nat)
      (x y : Int) (children : List PNode)

@[simp] def PNode.id : PNode → String
  | .mk i _ _ _ _ _ _ _ => i

@[simp] def PNode.key : PNode → String
  | .mk _ k _ _ _ _ _ _ => k

@[simp] def PNode.type : PNode → JKind
  | .mk _ _ t _ _ _ _ _ => t

@[simp] def PNode.value : PNode → JsonValue
  | .mk _ _ _ v _ _ _ _ => v

@[simp] def PNode.width : PNode → Nat
  | .mk _ _ _ _ w _ _ _ => w

@[simp] def PNode.x : PNode → Int
  | .mk _ _ _ _ _ x _ _ => x

@[simp] def PNode.y : PNode → Int
  | .mk _ _ _ _ _ _ y _ => y

@[simp] def PNode.children : PNode → List PNode
  | .mk _ _ _ _ _ _ _ cs => cs

mutual

/-- `layoutTree` (App.jsx 84-93), specialized to the default gaps
`H_GAP`/`V_GAP` the pipeline uses: the node's center is
`xStart + width * H_GAP / 2` at `y = depth * V_GAP`, and the children are
laid out left to right from `xStart`, the cursor advancing by
`child.width * H_GAP` after each child.  The division by `2` is exact
because `H_GAP` is even, so modelling the coordinates as integers agrees
with the source's float arithmetic. -/
def layoutTree (n : JNode) (xStart : Int) (depth : Nat) : PNode :=
  match n with
  | .mk i k t v cs =>
    PNode.mk i k t v (computeWidths (.mk i k t v cs))
      (xStart + ((computeWidths (.mk i k t v cs) : Int) * H_GAP) / 2)
      ((depth : Int) * V_GAP)
      (layoutChildren cs xStart (depth + 1))

/-- The children loop of App.jsx 88-92. -/
def layoutChildren (cs : List JNode) (cursor : Int) (depth : Nat) : List PNode :=
  match cs with
  | [] => []
  | c :: rest =>
    layoutTree c cursor depth
      :: layoutChildren rest (cursor + (computeWidths c : Int) * H_GAP) depth

end

mutual

/-- All nodes of a positioned tree. -/
def psubnodes : PNode → List PNode
  | .mk i k t v w x y cs => .mk i k t v w x y cs :: psubnodesList cs

def psubnodesList : List PNode → List PNode
  | [] => []
  | c :: rest => psubnodes c ++ psubnodesList rest

end

theorem mem_psubnodesList {q : PNode} :
    ∀ {ps : List PNode}, q ∈ psubnodesList ps ↔ ∃ c ∈ ps, q ∈ psubnodes c := by
  intro ps
  induction ps with
  | nil => simp [psubnodesList]
  | cons c rest ih => simp [psubnodesList, ih]

theorem self_mem_psubnodes (p : PNode) : p ∈ psubnodes p := by
  cases p with
  | mk i k t v w x y cs => simp [psubnodes]

theorem mem_psubnodes_iff {q p : PNode} :
    q ∈ psubnodes p ↔ q = p ∨ ∃ c ∈ p.children, q ∈ psubnodes c := by
  cases p with
  | mk i k t v w x y cs => simp [psubnodes, mem_psubnodesList]

mutual

/-- `p` laid out from horizontal origin `s` respects its span: every center
in `p`'s subtree lies in the half-open span `[s, s + p.width * H_GAP)`, and
the children partition that span left to right — each child respects the
span that starts at the running cursor, and the cursor advances by exactly
`child.width * H_GAP` (so consecutive siblings' spans are contiguous, and
hence disjoint). -/
def spanRespect (p : PNode) (s : Int) : Prop :=
  match p with
  | .mk i k t v w x y cs =>
    (∀ q ∈ psubnodes (.mk i k t v w x y cs),
      s ≤ q.x ∧ q.x < s + (w : Int) * H_GAP) ∧
    childrenRespect cs s

/-- The children of a node, starting at cursor `s`, each respect their own
span and those spans are consecutive. -/
def childrenRespect (ps : List PNode) (s : Int) : Prop :=
  match ps with
  | [] => True
  | c :: rest => spanRespect c s ∧ childrenRespect rest (s + (c.width : Int) * H_GAP)

end

/-- Consecutive-sibling separation: every center in the subtree of a child
lies strictly to the left of every center in the subtree of the next child. -/
def consecOrdered : List PNode → Prop
  | [] => True
  | [_] => True
  | a :: b :: rest =>
    (∀ q1 ∈ psubnodes a, ∀ q2 ∈ psubnodes b, q1.x < q2.x) ∧ consecOrdered (b :: rest)

mutual

theorem layout_x_bound (n : JNode) (s : Int) (d : Nat) :
    ∀ q ∈ psubnodes (layoutTree n s d),
      s ≤ q.x ∧ q.x < s + (computeWidths n : Int) * H_GAP := by
  cases n with
  | mk i k t v cs =>
    intro q hq
    rw [layoutTree] at hq
    rcases mem_psubnodes_iff.mp hq with h | ⟨c, hc, hq'⟩
    · subst h
      have hw : 1 ≤ computeWidths (JNode.mk i k t v cs) := one_le_computeWidths _
      simp only [PNode.x, H_GAP]
      omega
    · simp only [PNode.children] at hc
      have hq2 := (mem_psubnodesList.mpr ⟨c, hc, hq'⟩)
      cases cs with
      | nil => simp [layoutChildren, psubnodesList] at hq2
      | cons c0 rest =>
        have hb := layoutChildren_x_bound (c0 :: rest) s (d + 1) q hq2
        rw [computeWidths_of_cons i k t v c0 rest]
        exact hb

theorem layoutChildren_x_bound (cs : List JNode) (s : Int) (d : Nat) :
    ∀ q ∈ psubnodesList (layoutChildren cs s d),
      s ≤ q.x ∧ q.x < s + (sumWidths cs : Int) * H_GAP := by
  cases cs with
  | nil => intro q hq; simp [layoutChildren, psubnodesList] at hq
  | cons c rest =>
    intro q hq
    rw [layoutChildren] at hq
    rw [psubnodesList] at hq
    rcases List.mem_append.mp hq with h | h
    · have hb := layout_x_bound c s d q h
      have hr : (0 : Int) ≤ (sumWidths rest : Int) * H_GAP := by
        have : (0 : Int) ≤ (sumWidths rest : Int) := Int.ofNat_nonneg _
        simp only [H_GAP]
        omega
      rw [sumWidths]
      push_cast
      push_cast at hb
      constructor
      · exact hb.1
      · have := hb.2
        simp only [H_GAP] at this hr ⊢
        omega
    · have hb := layoutChildren_x_bound rest (s + (computeWidths c : Int) * H_GAP) d q h
      rw [sumWidths]
      push_cast
      push_cast at hb
      simp only [H_GAP] at hb ⊢
      omega

end

mutual

theorem layoutTree_spanRespect (n : JNode) (s : Int) (d : Nat) :
    spanRespect (layoutTree n s d) s := by
  cases n with
  | mk i k t v cs =>
    rw [layoutTree, spanRespect]
    constructor
    · have := layout_x_bound (.mk i k t v cs) s d
      rw [layoutTree] at this
      exact this
    · exact layoutChildren_childrenRespect cs s (d + 1)

theorem layoutChildren_childrenRespect (cs : List JNode) (s : Int) (d : Nat) :
    childrenRespect (layoutChildren cs s d) s := by
  cases cs with
  | nil => rw [layoutChildren]; trivial
  | cons c rest =>
    rw [layoutChildren, childrenRespect]
    constructor
    · exact layoutTree_spanRespect c s d
    · have hw : (layoutTree c s d).width = computeWidths c := by
        cases c with
        | mk i k t v cs' => rw [layoutTree]; rfl
      rw [hw]
      exact layoutChildren_childrenRespect rest (s + (computeWidths c : Int) * H_GAP) d

end

theorem consecOrdered_layoutChildren :
    ∀ (cs : List JNode) (s : Int) (d : Nat), consecOrdered (layoutChildren cs s d) := by
  intro cs
  induction cs with
  | nil => intro s d; rw [layoutChildren]; trivial
  | cons c rest ih =>
    intro s d
    cases rest with
    | nil => rw [layoutChildren, layoutChildren]; trivial
    | cons c2 rest2 =>
      rw [layoutChildren, layoutChildren, consecOrdered]
      constructor
      · intro q1 hq1 q2 hq2
        have h1 := (layout_x_bound c s d q1 hq1).2
        have h2 := (layout_x_bound c2 (s + (computeWidths c : Int) * H_GAP) d q2 hq2).1
        omega
      · have := ih (s + (computeWidths c : Int) * H_GAP) d
        rw [layoutChildren] at this
        exact this

theorem mem_layoutChildren {p : PNode} :
    ∀ {cs : List JNode} {s : Int} {d : Nat}, p ∈ layoutChildren cs s d →
      ∃ c ∈ cs, ∃ s' : Int, p = layoutTree c s' d := by
  intro cs
  induction cs with
  | nil => intro s d h; simp [layoutChildren] at h
  | cons c rest ih =>
    intro s d h
    rw [layoutChildren] at h
    rcases List.mem_cons.mp h with h' | h'
    · exact ⟨c, List.mem_cons_self c rest, s, h'⟩
    · obtain ⟨c', hc', s', h''⟩ := ih h'
      exact ⟨c', List.mem_cons_of_mem c hc', s', h''⟩

theorem consecOrdered_everywhere (n : JNode) (s : Int) (d : Nat) :
    ∀ q ∈ psubnodes (layoutTree n s d), consecOrdered q.children := by
  cases n with
  | mk i k t v cs =>
    intro q hq
    rw [layoutTree] at hq
    rcases mem_psubnodes_iff.mp hq with h | ⟨c, hc, hq'⟩
    · subst h
      simp only [PNode.children]
      exact consecOrdered_layoutChildren cs s (d + 1)
    · simp only [PNode.children] at hc
      obtain ⟨c', hc', s', hp⟩ := mem_layoutChildren hc
      subst hp
      have hsz : sizeOf c' < sizeOf (JNode.mk i k t v cs) := by
        have h1 : sizeOf c' < sizeOf cs := List.sizeOf_lt_of_mem hc'
        simp only [JNode.mk.sizeOf_spec]
        omega
      exact consecOrdered_everywhere c' s' (d + 1) q hq'
termination_by sizeOf n

/-- C3: after `layoutTree` runs from origin `xStart`, (a) the whole laid-out
tree respects its span — every center in any node's subtree lies inside the
half-open span of length `width * H_GAP` starting at the node's own cursor
position, and the children's spans partition the parent's span contiguously,
each sibling's span starting exactly `width * H_GAP` after the previous
one's (so consecutive spans are disjoint) — and (b) for every node of the
laid-out tree, all centers in one child's subtree lie strictly left of all
centers in the next child's subtree. -/
theorem layoutTree_spans :
    (∀ (n : JNode) (xStart : Int) (depth : Nat),
      spanRespect (layoutTree n xStart depth) xStart) ∧
    (∀ (n : JNode) (xStart : Int) (depth : Nat),
      ∀ q ∈ psubnodes (layoutTree n xStart depth), consecOrdered q.children) :=
  ⟨layoutTree_spanRespect, consecOrdered_everywhere⟩

/-- Witness for C3 at a concrete input: the two-leaf tree of
`{"x": 1, "y": 2}` laid out from origin `0`. -/
theorem layoutTree_spans_witness :
    spanRespect
      (layoutTree (buildTree (.obj [("x", .num 1), ("y", .num 2)]) "root") 0 0) 0 ∧
    consecOrdered
      (layoutTree (buildTree (.obj [("x", .num 1), ("y", .num 2)]) "root") 0 0).children :=
  ⟨layoutTree_spans.1 (buildTree (.obj [("x", .num 1), ("y", .num 2)]) "root") 0 0,
    layoutTree_spans.2 (buildTree (.obj [("x", .num 1), ("y", .num 2)]) "root") 0 0
      _ (self_mem_psubnodes _)⟩

/-- Rendering of a primitive literal (App.jsx 101): `null` spelled out,
strings quoted, booleans and numbers via the host `String(...)` conversion.
The `arr`/`obj` branches are never consulted: `labelFor` only calls this for
primitive nodes. -/
def primLabel : JsonValue → String
  | .null => "null"
  | .str s => "\"" ++ s ++ "\""
  | .num n => Int.repr n
  | .bool b => if b then "true" else "false"
  | .arr _ => ""
  | .obj _ => ""

/-- `labelFor` (App.jsx 99-107): primitives render as `key: literal` (bare
literal when the key is the empty string, which is falsy in the host
language); objects and arrays render as their key with a generic fallback
when the key is empty. -/
def labelFor (p : PNode) : String :=
  match p.type with
  | .primitive =>
    let v := primLabel p.value
    if p.key ≠ "" then p.key ++ ": " ++ v else v
  | .object => if p.key ≠ "" then p.key else "object"
  | .array => if p.key ≠ "" then p.key else "array"

/-- A render-payload node (App.jsx 114-129).  The style record is pure
presentation driven by the node kind; the one semantic bit — whether the
node's id equals the highlight id — is kept as the `highlighted` flag. -/
structure FlowNode where
  id : String
  x : Int
  y : Int
  label : String
  tooltip : String
  highlighted : Bool
deriving DecidableEq

/-- A render-payload edge (App.jsx 131). -/
structure FlowEdge where
  id : String
  source : String
  target : String
deriving DecidableEq

/-- The node/edge lists handed to the rendering surface. -/
structure Flow where
  nodes : List FlowNode
  edges : List FlowEdge
deriving DecidableEq

mutual

/-- The node records emitted by `mapToFlow` (App.jsx 111-134).  The source
walks the tree with an explicit stack, which emits the same records in a
different order; the order of the flattened list is irrelevant to the
rendering surface (spec §4.5) and to every claim, so the walk is written as
the equivalent structural recursion. -/
def flowNodes (h : Option String) : PNode → List FlowNode
  | .mk i k t v w x y cs =>
    { id := i, x := x, y := y, label := labelFor (.mk i k t v w x y cs),
      tooltip := i ++ " => " ++ labelFor (.mk i k t v w x y cs),
      highlighted := some i == h }
      :: flowNodesList h cs

def flowNodesList (h : Option String) : List PNode → List FlowNode
  | [] => []
  | c :: rest => flowNodes h c ++ flowNodesList h rest

end

mutual

/-- The edge records emitted by `mapToFlow` (App.jsx 130-133): one edge per
parent-child pair, id `parent->child`. -/
def flowEdges : PNode → List FlowEdge
  | .mk i _ _ _ _ _ _ cs =>
    (cs.map fun c => { id := i ++ "->" ++ c.id, source := i, target := c.id })
      ++ flowEdgesList cs

def flowEdgesList : List PNode → List FlowEdge
  | [] => []
  | c :: rest => flowEdges c ++ flowEdgesList rest

end

/-- `mapToFlow` (App.jsx 95-136) without the color table, which only feeds
the style record. -/
def mapToFlow (p : PNode) (h : Option String) : Flow :=
  { nodes := flowNodes h p, edges := flowEdges p }

/-- The minimum x-coordinate of a node list (App.jsx 205); the pipeline only
evaluates it on the nonempty node list of a tree. -/
def minX : List FlowNode → Int
  | [] => 0
  | n :: rest => (rest.map FlowNode.x).foldl min n.x

/-- The re-anchoring of App.jsx 205-206: translate so the leftmost center
sits at `x = 40`. -/
def anchor (f : Flow) : Flow :=
  { nodes := f.nodes.map (fun n => { n with x := n.x - minX f.nodes + 40 }),
    edges := f.edges }

/-- The full build pipeline of `generate` (App.jsx 201-206): build, widths,
layout, map, re-anchor. -/
def buildGraph (v : JsonValue) (h : Option String) : Flow :=
  anchor (mapToFlow (layoutTree (buildTree v "root") 0 0) h)

mutual

/-- The number of object keys plus array elements reachable in a value. -/
def countItems : JsonValue → Nat
  | .obj kvs => countEntries kvs
  | .arr vs => countElems vs
  | _ => 0

def countEntries : List (String × JsonValue) → Nat
  | [] => 0
  | (_, w) :: rest => 1 + countItems w + countEntries rest

def countElems : List JsonValue → Nat
  | [] => 0
  | w :: rest => 1 + countItems w + countElems rest

end

mutual

theorem length_flowNodes (h : Option String) (p : PNode) :
    (flowNodes h p).length = (psubnodes p).length := by
  cases p with
  | mk i k t v w x y cs =>
    rw [flowNodes, psubnodes]
    simp only [List.length_cons]
    rw [length_flowNodesList h cs]

theorem length_flowNodesList (h : Option String) (ps : List PNode) :
    (flowNodesList h ps).length = (psubnodesList ps).length := by
  cases ps with
  | nil => rw [flowNodesList, psubnodesList]; rfl
  | cons c rest =>
    rw [flowNodesList, psubnodesList]
    simp only [List.length_append]
    rw [length_flowNodes h c, length_flowNodesList h rest]

end

mutual

theorem length_flowEdges (p : PNode) :
    (flowEdges p).length + 1 = (psubnodes p).length := by
  cases p with
  | mk i k t v w x y cs =>
    rw [flowEdges, psubnodes]
    simp only [List.length_append, List.length_map, List.length_cons]
    have := length_flowEdgesList cs
    omega

theorem length_flowEdgesList (ps : List PNode) :
    (flowEdgesList ps).length + ps.length = (psubnodesList ps).length := by
  cases ps with
  | nil => rw [flowEdgesList, psubnodesList]; rfl
  | cons c rest =>
    rw [flowEdgesList, psubnodesList]
    simp only [List.length_append, List.length_cons]
    have h1 := length_flowEdges c
    have h2 := length_flowEdgesList rest
    omega

end

mutual

theorem length_psubnodes_layout (n : JNode) (s : Int) (d : Nat) :
    (psubnodes (layoutTree n s d)).length = (subnodes n).length := by
  cases n with
  | mk i k t v cs =>
    rw [layoutTree, psubnodes, subnodes]
    simp only [List.length_cons]
    rw [length_psubnodesList_layoutChildren cs s (d + 1)]

theorem length_psubnodesList_layoutChildren (cs : List JNode) (s : Int) (d : Nat) :
    (psubnodesList (layoutChildren cs s d)).length = (subnodesList cs).length := by
  cases cs with
  | nil => rw [layoutChildren, psubnodesList, subnodesList]; rfl
  | cons c rest =>
    rw [layoutChildren, psubnodesList, subnodesList]
    simp only [List.length_append]
    rw [length_psubnodes_layout c s d,
      length_psubnodesList_layoutChildren rest (s + (computeWidths c : Int) * H_GAP) d]

end

mutual

theorem length_subnodesList_buildChildren (path : String) (v : JsonValue) :
    (subnodesList (buildChildren path v)).length = countItems v := by
  cases v with
  | obj kvs => rw [buildChildren, countItems]; exact length_subnodesList_obj path kvs
  | arr vs => rw [buildChildren, countItems]; exact length_subnodesList_arr path 0 vs
  | null => simp [buildChildren, subnodesList, countItems]
  | bool b => simp [buildChildren, subnodesList, countItems]
  | num n => simp [buildChildren, subnodesList, countItems]
  | str s => simp [buildChildren, subnodesList, countItems]

theorem length_subnodesList_obj (path : String) (kvs : List (String × JsonValue)) :
    (subnodesList (buildObjChildren path kvs)).length = countEntries kvs := by
  cases kvs with
  | nil => rw [buildObjChildren, subnodesList]; rfl
  | cons kv rest =>
    obtain ⟨k, cv⟩ := kv
    rw [buildObjChildren, subnodesList, subnodes, countEntries]
    simp only [List.length_append, List.length_cons]
    rw [length_subnodesList_buildChildren (path ++ "." ++ k) cv,
      length_subnodesList_obj path rest]
    omega

theorem length_subnodesList_arr (path : String) (i : Nat) (vs : List JsonValue) :
    (subnodesList (buildArrChildren path i vs)).length = countElems vs := by
  cases vs with
  | nil => rw [buildArrChildren, subnodesList]; rfl
  | cons cv rest =>
    rw [buildArrChildren, subnodesList, subnodes, countElems]
    simp only [List.length_append, List.length_cons]
    rw [length_subnodesList_buildChildren (path ++ "[" ++ Nat.repr i ++ "]") cv,
      length_subnodesList_arr path (i + 1) rest]
    omega

end

theorem length_subnodes_mk (i k : String) (t : JKind) (w : JsonValue) :
    (subnodes (JNode.mk i k t w (buildChildren i w))).length = 1 + countItems w := by
  rw [subnodes]
  simp only [List.length_cons]
  rw [length_subnodesList_buildChildren]
  omega

theorem length_subnodes_buildTree (v : JsonValue) (rk : String) :
    (subnodes (buildTree v rk)).length
      = countItems v + (if collapses v then 0 else 1) := by
  cases v with
  | obj kvs =>
    match kvs with
    | [] =>
      rw [show buildTree (.obj []) rk
          = JNode.mk "$" rk (detectType (.obj [])) (.obj []) (buildChildren "$" (.obj []))
          from rfl, length_subnodes_mk]
      simp [collapses, countItems, countEntries]
    | [(k, w)] =>
      rw [show buildTree (.obj [(k, w)]) rk
          = JNode.mk ("$." ++ k) k (detectType w) w (buildChildren ("$." ++ k) w)
          from rfl, length_subnodes_mk]
      simp [collapses, countItems, countEntries]
    | (k1, w1) :: (k2, w2) :: rest =>
      rw [show buildTree (.obj ((k1, w1) :: (k2, w2) :: rest)) rk
          = JNode.mk "$" rk (detectType (.obj ((k1, w1) :: (k2, w2) :: rest)))
              (.obj ((k1, w1) :: (k2, w2) :: rest))
              (buildChildren "$" (.obj ((k1, w1) :: (k2, w2) :: rest)))
          from rfl, length_subnodes_mk]
      simp [collapses]
      omega
  | arr vs =>
    rw [show buildTree (.arr vs) rk
        = JNode.mk "$" rk (detectType (.arr vs)) (.arr vs) (buildChildren "$" (.arr vs))
        from rfl, length_subnodes_mk]
    simp [collapses]
    omega
  | null =>
    rw [show buildTree .null rk
        = JNode.mk "$" rk (detectType .null) .null (buildChildren "$" .null)
        from rfl, length_subnodes_mk]
    simp [collapses, countItems]
  | bool b =>
    rw [show buildTree (.bool b) rk
        = JNode.mk "$" rk (detectType (.bool b)) (.bool b) (buildChildren "$" (.bool b))
        from rfl, length_subnodes_mk]
    simp [collapses, countItems]
  | num n =>
    rw [show buildTree (.num n) rk
        = JNode.mk "$" rk (detectType (.num n)) (.num n) (buildChildren "$" (.num n))
        from rfl, length_subnodes_mk]
    simp [collapses, countItems]
  | str s =>
    rw [show buildTree (.str s) rk
        = JNode.mk "$" rk (detectType (.str s)) (.str s) (buildChildren "$" (.str s))
        from rfl, length_subnodes_mk]
    simp [collapses, countItems]

/-- C4: for every JSON value, the full no-highlight pipeline emits one node
per reachable object key or array element, plus one for the root when the
root is not collapsed away, and exactly one edge fewer than that. -/
theorem buildGraph_counts (v : JsonValue) :
    (buildGraph v none).nodes.length
      = countItems v + (if collapses v then 0 else 1) ∧
    (buildGraph v none).edges.length = (buildGraph v none).nodes.length - 1 := by
  have hn : (buildGraph v none).nodes.length = (subnodes (buildTree v "root")).length := by
    show ((flowNodes none (layoutTree (buildTree v "root") 0 0)).map _).length = _
    rw [List.length_map, length_flowNodes, length_psubnodes_layout]
  have he : (buildGraph v none).edges.length + 1 = (subnodes (buildTree v "root")).length := by
    show (flowEdges (layoutTree (buildTree v "root") 0 0)).length + 1 = _
    rw [length_flowEdges, length_psubnodes_layout]
  refine ⟨?_, ?_⟩
  · rw [hn, length_subnodes_buildTree]
  · omega

mutual

/-- Every object key reachable in the value satisfies `P`. -/
def allKeys (P : String → Prop) : JsonValue → Prop
  | .obj kvs => allKeysEntries P kvs
  | .arr vs => allKeysElems P vs
  | _ => True

def allKeysEntries (P : String → Prop) : List (String × JsonValue) → Prop
  | [] => True
  | (k, w) :: rest => P k ∧ allKeys P w ∧ allKeysEntries P rest

def allKeysElems (P : String → Prop) : List JsonValue → Prop
  | [] => True
  | w :: rest => allKeys P w ∧ allKeysElems P rest

end

mutual

theorem allKeys_trivial (v : JsonValue) : allKeys (fun _ => True) v := by
  cases v with
  | obj kvs => rw [allKeys]; exact allKeysEntries_trivial kvs
  | arr vs => rw [allKeys]; exact allKeysElems_trivial vs
  | null => simp [allKeys]
  | bool b => simp [allKeys]
  | num n => simp [allKeys]
  | str s => simp [allKeys]

theorem allKeysEntries_trivial (kvs : List (String × JsonValue)) :
    allKeysEntries (fun _ => True) kvs := by
  cases kvs with
  | nil => rw [allKeysEntries]; trivial
  | cons kv rest =>
    obtain ⟨k, w⟩ := kv
    rw [allKeysEntries]
    exact ⟨trivial, allKeys_trivial w, allKeysEntries_trivial rest⟩

theorem allKeysElems_trivial (vs : List JsonValue) :
    allKeysElems (fun _ => True) vs := by
  cases vs with
  | nil => rw [allKeysElems]; trivial
  | cons w rest =>
    rw [allKeysElems]
    exact ⟨allKeys_trivial w, allKeysElems_trivial rest⟩

end

/-- The suffix language of generated ids relative to an ancestor's id: a
possibly empty concatenation of `.key` tokens (keys satisfying `P`) and
`[index]` tokens. -/
inductive Toks (P : String → Prop) : List Char → Prop
  | nil : Toks P []
  | dot (k : String) (s : List Char) : P k → Toks P s → Toks P ('.' :: (k.data ++ s))
  | idx (i : Nat) (s : List Char) : Toks P s →
      Toks P ('[' :: ((Nat.repr i).data ++ ']' :: s))

theorem toks_ne_nil_head {P : String → Prop} {s : List Char} (h : Toks P s)
    (hne : s ≠ []) : ∃ t, s = '.' :: t ∨ s = '[' :: t := by
  cases h with
  | nil => exact absurd rfl hne
  | dot k s' hk hs => exact ⟨k.data ++ s', Or.inl rfl⟩
  | idx i s' hs => exact ⟨(Nat.repr i).data ++ ']' :: s', Or.inr rfl⟩

theorem obj_child_struct (P : String → Prop) (path : String) :
    ∀ (kvs : List (String × JsonValue)), allKeysEntries P kvs →
      ∀ c ∈ buildObjChildren path kvs,
        ∃ k', P k' ∧ c.id.data = path.data ++ '.' :: k'.data ∧ allKeys P c.value := by
  intro kvs
  induction kvs with
  | nil => intro _ c hc; simp [buildObjChildren] at hc
  | cons kv rest ih =>
    obtain ⟨k, cv⟩ := kv
    intro hall c hc
    rw [allKeysEntries] at hall
    rw [buildObjChildren] at hc
    rcases List.mem_cons.mp hc with h' | h'
    · subst h'
      refine ⟨k, hall.1, ?_, hall.2.1⟩
      simp [String.data_append]
    · exact ih hall.2.2 c h'

theorem arr_child_struct (P : String → Prop) (path : String) :
    ∀ (vs : List JsonValue) (i : Nat), allKeysElems P vs →
      ∀ c ∈ buildArrChildren path i vs,
        ∃ j : Nat,
          c.id.data = path.data ++ '[' :: ((Nat.repr j).data ++ [']']) ∧
          allKeys P c.value := by
  intro vs
  induction vs with
  | nil => intro i _ c hc; simp [buildArrChildren] at hc
  | cons cv rest ih =>
    intro i hall c hc
    rw [allKeysElems] at hall
    rw [buildArrChildren] at hc
    rcases List.mem_cons.mp hc with h' | h'
    · subst h'
      refine ⟨i, ?_, hall.1⟩
      simp [String.data_append]
    · exact ih (i + 1) hall.2 c h'

/-- A child's single id token, together with the structural facts carried to
the recursion: the child is built and its keys still satisfy `P`. -/
theorem child_token {P : String → Prop} {n c : JNode} (hb : Built n)
    (hk : allKeys P n.value) (hc : c ∈ n.children) :
    (∃ t, c.id.data = n.id.data ++ t ∧ t ≠ [] ∧
      (∀ s, Toks P s → Toks P (t ++ s))) ∧ Built c ∧ allKeys P c.value := by
  have hbc : Built c := built_children hb c hc
  rw [hb.1] at hc
  cases hv : n.value with
  | obj kvs =>
    rw [hv, buildChildren] at hc
    rw [hv, allKeys] at hk
    obtain ⟨k', hp, hid, hkc⟩ := obj_child_struct P n.id kvs hk c hc
    refine ⟨⟨'.' :: k'.data, hid, by simp, ?_⟩, hbc, hkc⟩
    intro s hs
    have := Toks.dot (P := P) k' s hp hs
    simpa using this
  | arr vs =>
    rw [hv, buildChildren] at hc
    rw [hv, allKeys] at hk
    obtain ⟨j, hid, hkc⟩ := arr_child_struct P n.id vs 0 hk c hc
    refine ⟨⟨'[' :: ((Nat.repr j).data ++ [']']), hid, by simp, ?_⟩, hbc, hkc⟩
    intro s hs
    have := Toks.idx (P := P) j s hs
    simpa using this
  | null => rw [hv] at hc; simp [buildChildren] at hc
  | bool b => rw [hv] at hc; simp [buildChildren] at hc
  | num m => rw [hv] at hc; simp [buildChildren] at hc
  | str s => rw [hv] at hc; simp [buildChildren] at hc

/-- Every id in the subtree of a built node `n` is `n.id` followed by a
(possibly empty) token suffix, and only `n` itself carries the empty
suffix. -/
theorem id_suffix (P : String → Prop) (n : JNode) (hb : Built n)
    (hk : allKeys P n.value) :
    ∀ q ∈ subnodes n,
      ∃ s, q.id.data = n.id.data ++ s ∧ Toks P s ∧ (s = [] → q = n) := by
  intro q hq
  rcases mem_subnodes_iff.mp hq with h | ⟨c, hc, hq'⟩
  · subst h
    exact ⟨[], by simp, Toks.nil, fun _ => rfl⟩
  · obtain ⟨⟨t, hid, htne, htok⟩, hbc, hkc⟩ := child_token hb hk hc
    have hsz : sizeOf c < sizeOf n := sizeOf_lt_of_mem_children hc
    obtain ⟨s', hid', htok', _⟩ := id_suffix P c hbc hkc q hq'
    refine ⟨t ++ s', ?_, htok s' htok', ?_⟩
    · rw [hid', hid, List.append_assoc]
    · intro habs
      exact absurd (List.append_eq_nil.mp habs).1 htne
termination_by sizeOf n
decreasing_by
  cases n with
  | mk i k t' v cs =>
    have h2 : sizeOf c < sizeOf cs := List.sizeOf_lt_of_mem hc
    simp only [JNode.mk.sizeOf_spec]
    omega

theorem mem_anchor_nodes {fn : FlowNode} {f : Flow} (h : fn ∈ (anchor f).nodes) :
    ∃ fn' ∈ f.nodes, fn.id = fn'.id := by
  obtain ⟨fn', hfn', heq⟩ := List.mem_map.mp h
  exact ⟨fn', hfn', by rw [← heq]⟩

mutual

theorem mem_flowNodes_id {fn : FlowNode} {h : Option String} {p : PNode}
    (hm : fn ∈ flowNodes h p) : ∃ q ∈ psubnodes p, fn.id = q.id := by
  cases p with
  | mk i k t v w x y cs =>
    rw [flowNodes] at hm
    rcases List.mem_cons.mp hm with h' | h'
    · exact ⟨.mk i k t v w x y cs, self_mem_psubnodes _, by rw [h']; rfl⟩
    · obtain ⟨q, hq, heq⟩ := mem_flowNodesList_id h'
      refine ⟨q, ?_, heq⟩
      rw [psubnodes]
      exact List.mem_cons_of_mem _ hq

theorem mem_flowNodesList_id {fn : FlowNode} {h : Option String} {ps : List PNode}
    (hm : fn ∈ flowNodesList h ps) : ∃ q ∈ psubnodesList ps, fn.id = q.id := by
  cases ps with
  | nil => rw [flowNodesList] at hm; cases hm
  | cons c rest =>
    rw [flowNodesList] at hm
    rcases List.mem_append.mp hm with h' | h'
    · obtain ⟨q, hq, heq⟩ := mem_flowNodes_id h'
      refine ⟨q, ?_, heq⟩
      rw [psubnodesList]
      exact List.mem_append_left _ hq
    · obtain ⟨q, hq, heq⟩ := mem_flowNodesList_id h'
      refine ⟨q, ?_, heq⟩
      rw [psubnodesList]
      exact List.mem_append_right _ hq

end

mutual

theorem mem_psubnodes_layout_id {q : PNode} {n : JNode} {s : Int} {d : Nat}
    (hm : q ∈ psubnodes (layoutTree n s d)) : ∃ r ∈ subnodes n, q.id = r.id := by
  cases n with
  | mk i k t v cs =>
    rw [layoutTree] at hm
    rcases mem_psubnodes_iff.mp hm with h | ⟨c, hc, hq'⟩
    · refine ⟨.mk i k t v cs, self_mem_subnodes _, by rw [h]; rfl⟩
    · simp only [PNode.children] at hc
      obtain ⟨r, hr, heq⟩ := mem_psubnodesList_layoutChildren_id
        (mem_psubnodesList.mpr ⟨c, hc, hq'⟩)
      refine ⟨r, ?_, heq⟩
      rw [subnodes]
      exact List.mem_cons_of_mem _ hr

theorem mem_psubnodesList_layoutChildren_id {q : PNode} {cs : List JNode} {s : Int}
    {d : Nat} (hm : q ∈ psubnodesList (layoutChildren cs s d)) :
    ∃ r ∈ subnodesList cs, q.id = r.id := by
  cases cs with
  | nil => rw [layoutChildren, psubnodesList] at hm; cases hm
  | cons c rest =>
    rw [layoutChildren, psubnodesList] at hm
    rcases List.mem_append.mp hm with h' | h'
    · obtain ⟨r, hr, heq⟩ := mem_psubnodes_layout_id h'
      refine ⟨r, ?_, heq⟩
      rw [subnodesList]
      exact List.mem_append_left _ hr
    · obtain ⟨r, hr, heq⟩ := mem_psubnodesList_layoutChildren_id h'
      refine ⟨r, ?_, heq⟩
      rw [subnodesList]
      exact List.mem_append_right _ hr

end

/-- Every id in the render payload is the id of a node of the built tree. -/
theorem buildGraph_node_ids {fn : FlowNode} {v : JsonValue} {h : Option String}
    (hm : fn ∈ (buildGraph v h).nodes) :
    ∃ r ∈ subnodes (buildTree v "root"), fn.id = r.id := by
  obtain ⟨fn', hfn', heq⟩ := mem_anchor_nodes hm
  obtain ⟨q, hq, heq'⟩ := mem_flowNodes_id hfn'
  obtain ⟨r, hr, heq''⟩ := mem_psubnodes_layout_id hq
  exact ⟨r, hr, by rw [heq, heq', heq'']⟩

/-- C10: for a document that is an object with exactly one key `k`, every id
in the rendered node list extends `$.k` — in particular no rendered node has
the bare id `$`, so the canonical id `$` the resolver returns for an empty
query matches no rendered node of such a collapsed tree. -/
theorem collapsed_root_unaddressable (k : String) (w : JsonValue) :
    ∀ fn ∈ (buildGraph (.obj [(k, w)]) none).nodes,
      (∃ s, fn.id.data = ("$." ++ k).data ++ s) ∧ fn.id ≠ "$" := by
  intro fn hm
  obtain ⟨r, hr, heq⟩ := buildGraph_node_ids hm
  have hroot : buildTree (.obj [(k, w)]) "root"
      = JNode.mk ("$." ++ k) k (detectType w) w (buildChildren ("$." ++ k) w) := rfl
  have hb : Built (buildTree (.obj [(k, w)]) "root") := built_buildTree _ _
  have hk : allKeys (fun _ => True) (buildTree (.obj [(k, w)]) "root").value := by
    rw [hroot]
    exact allKeys_trivial w
  obtain ⟨s, hs, _, _⟩ := id_suffix (fun _ => True) _ hb hk r hr
  have hids : (buildTree (.obj [(k, w)]) "root").id = "$." ++ k := rfl
  rw [hids] at hs
  constructor
  · exact ⟨s, by rw [heq, hs]⟩
  · intro habs
    have h3 : ("$." ++ k).data ++ s = ['$'] := by rw [← hs, ← heq, habs]
    simp [String.data_append] at h3

/-- The one node the pipeline renders for `{"a": 1}`. -/
def collapsedSampleNode : FlowNode :=
  { id := "$.a", x := 40, y := 0, label := "a: 1", tooltip := "$.a => a: 1",
    highlighted := false }

/-- Witness for C10: in the graph of `{"a": 1}` the single rendered node has
id `$.a`, which extends `$.a` and differs from `$`. -/
theorem collapsed_root_unaddressable_witness :
    collapsedSampleNode ∈ (buildGraph (.obj [("a", .num 1)]) none).nodes ∧
    (∃ s, collapsedSampleNode.id.data = ("$." ++ "a").data ++ s) ∧
    collapsedSampleNode.id ≠ "$" := by
  have hm : collapsedSampleNode ∈ (buildGraph (.obj [("a", .num 1)]) none).nodes := by
    decide
  exact ⟨hm, collapsed_root_unaddressable "a" (.num 1) _ hm⟩

theorem digitChar_isDigit {m : Nat} (h : m < 10) : (Nat.digitChar m).isDigit = true := by
  interval_cases m <;> decide

theorem toDigitsCore_isDigit (fuel : Nat) :
    ∀ (n : Nat) (acc : List Char), (∀ c ∈ acc, c.isDigit) →
      ∀ c ∈ Nat.toDigitsCore 10 fuel n acc, c.isDigit = true := by
  induction fuel with
  | zero => intro n acc hacc c hc; rw [Nat.toDigitsCore] at hc; exact hacc c hc
  | succ fuel ih =>
    intro n acc hacc c hc
    rw [Nat.toDigitsCore] at hc
    by_cases h0 : n / 10 = 0
    · rw [if_pos h0] at hc
      rcases List.mem_cons.mp hc with h' | h'
      · subst h'; exact digitChar_isDigit (Nat.mod_lt _ (by omega))
      · exact hacc c h'
    · rw [if_neg h0] at hc
      refine ih (n / 10) (Nat.digitChar (n % 10) :: acc) ?_ c hc
      intro c' hc'
      rcases List.mem_cons.mp hc' with h' | h'
      · subst h'; exact digitChar_isDigit (Nat.mod_lt _ (by omega))
      · exact hacc c' h'

theorem repr_isDigit (n : Nat) : ∀ c ∈ (Nat.repr n).data, c.isDigit = true := by
  intro c hc
  exact toDigitsCore_isDigit (n + 1) n [] (by intro c' hc'; cases hc') c hc

/-- The numeric value read back from a digit string, most significant
first. -/
def digitsVal (l : List Char) : Nat :=
  l.foldl (fun a c => a * 10 + (c.toNat - 48)) 0

theorem digitsVal_append_singleton (l : List Char) (c : Char) :
    digitsVal (l ++ [c]) = 10 * digitsVal l + (c.toNat - 48) := by
  simp [digitsVal, List.foldl_append]
  omega

theorem digitChar_toNat {m : Nat} (h : m < 10) : (Nat.digitChar m).toNat = 48 + m := by
  interval_cases m <;> decide

theorem toDigitsCore_shift :
    ∀ (n fuel : Nat) (acc : List Char), n < fuel →
      Nat.toDigitsCore 10 fuel n acc = Nat.toDigitsCore 10 (n + 1) n [] ++ acc := by
  intro n
  induction n using Nat.strong_induction_on with
  | _ n ih =>
    intro fuel acc hfuel
    match fuel with
    | fuel' + 1 =>
      rw [Nat.toDigitsCore]
      conv_rhs => rw [Nat.toDigitsCore]
      by_cases h0 : n / 10 = 0
      · rw [if_pos h0, if_pos h0]
        rfl
      · rw [if_neg h0, if_neg h0]
        have hdiv : n / 10 < n := Nat.div_lt_self (by omega) (by omega)
        rw [ih (n / 10) hdiv fuel' _ (by omega),
          ih (n / 10) hdiv n _ (by omega), List.append_assoc]
        rfl

theorem digitsVal_toDigits (n : Nat) :
    digitsVal (Nat.toDigitsCore 10 (n + 1) n []) = n := by
  induction n using Nat.strong_induction_on with
  | _ n ih =>
    rw [Nat.toDigitsCore]
    by_cases h0 : n / 10 = 0
    · rw [if_pos h0]
      have hm : n % 10 < 10 := Nat.mod_lt _ (by omega)
      simp [digitsVal, digitChar_toNat hm]
      omega
    · rw [if_neg h0]
      have hdiv : n / 10 < n := Nat.div_lt_self (by omega) (by omega)
      rw [toDigitsCore_shift (n / 10) n _ (by omega)]
      rw [show Nat.digitChar (n % 10) :: ([] : List Char) = [Nat.digitChar (n % 10)] from rfl]
      rw [digitsVal_append_singleton]
      rw [ih (n / 10) hdiv]
      have hm : n % 10 < 10 := Nat.mod_lt _ (by omega)
      rw [digitChar_toNat hm]
      omega

theorem repr_data_eq (n : Nat) : (Nat.repr n).data = Nat.toDigitsCore 10 (n + 1) n [] := rfl

theorem digitsVal_repr (n : Nat) : digitsVal (Nat.repr n).data = n := by
  rw [repr_data_eq]; exact digitsVal_toDigits n

theorem nat_repr_injective {m n : Nat} (h : Nat.repr m = Nat.repr n) : m = n := by
  have := congrArg (fun s => digitsVal s.data) h
  simpa [digitsVal_repr] using this

/-- A path token: an object-key string or an integer index (App.jsx 148/156). -/
inductive Tok where
  | str (s : String)
  | num (n : Int)
deriving DecidableEq

/-- The whitespace set the host language's `String.prototype.trim` and
`Number` conversion strip (ECMAScript WhiteSpace ∪ LineTerminator): tab,
LF, VT, FF, CR, space, NBSP, the Ogham space mark, the en-quad … hair-space
range, the line and paragraph separators, the narrow no-break, medium
mathematical and ideographic spaces, and the zero-width no-break space. -/
def jsWhitespace (c : Char) : Bool :=
  c == ' ' || c == '\t' || c == '\n' || c == '\r' ||
  c.toNat == 0x0B || c.toNat == 0x0C || c.toNat == 0xA0 ||
  c.toNat == 0x1680 ||
  (decide (0x2000 ≤ c.toNat) && decide (c.toNat ≤ 0x200A)) ||
  c.toNat == 0x2028 || c.toNat == 0x2029 ||
  c.toNat == 0x202F || c.toNat == 0x205F || c.toNat == 0x3000 ||
  c.toNat == 0xFEFF

/-- The whitespace trimming of the host language's `trim` (and of its
`Number` conversion), over the character list. -/
def jsTrimList (l : List Char) : List Char :=
  ((l.dropWhile jsWhitespace).reverse.dropWhile jsWhitespace).reverse

/-- Round-half-to-even integer division: the integer nearest to `n / d`,
ties going to the even neighbour — the rounding used by the host's
string-to-binary64 conversion. -/
def roundHalfEven (n d : Nat) : Nat :=
  let q := n / d
  let r := n % d
  if d < 2 * r then q + 1
  else if 2 * r < d then q
  else q + q % 2

/-- Base-2 logarithm by explicit fuel (structurally recursive so that it
reduces inside the kernel); with fuel at least `n` it is the floor of
`log2 n` for positive `n`. -/
def log2fuel : Nat → Nat → Nat
  | 0, _ => 0
  | fuel + 1, n => if 2 ≤ n then log2fuel fuel (n / 2) + 1 else 0

/-- Whether the positive rational `n / d` is at least `2 ^ c`. -/
def qGePow2 (n d : Nat) (c : Int) : Bool :=
  if 0 ≤ c then decide (d * 2 ^ c.toNat ≤ n)
  else decide (d ≤ n * 2 ^ (-c).toNat)

/-- The binade of the positive rational `n / d`: the exponent `e` with
`2 ^ e ≤ n / d < 2 ^ (e + 1)`, found from the bit lengths of `n` and `d`
and one comparison (the quotient of values in `[2^a, 2^(a+1))` and
`[2^b, 2^(b+1))` lies in `(2^(a-b-1), 2^(a-b+1))`). -/
def binade (n d : Nat) : Int :=
  let c : Int := (log2fuel n n : Int) - (log2fuel d d : Int)
  if qGePow2 n d c then c else c - 1

/-- Attaches the literal's sign to a magnitude (the source's `-0` compares
and renders exactly like `0` everywhere `parsePath` tokens are used, so the
integer `0` is exact for it). -/
def intWithSign (sign : Bool) (x : Nat) : Int :=
  if sign then -(x : Int) else (x : Int)

/-- The nearest binary64 (IEEE-754 double, round-to-nearest ties-to-even) to
the rational `± n / d` with `d > 0`, when that double is an integer: `some`
of its exact value.  `none` when the double is not an integer — a finite
non-integral double, or the overflow to an infinity (binade 1024 and
beyond after rounding).  Values below the normal range round on the fixed
subnormal grid `2 ^ (-1074)` and, being below 1 in magnitude, are integral
only when they round all the way to zero; normal values round to a 53-bit
mantissa `m` in `[2^52, 2^53)` at scale `2 ^ (e - 52)`, integral exactly
when no fractional mantissa bits remain. -/
def roundNumber (sign : Bool) (n d : Nat) : Option Int :=
  if n = 0 then some 0
  else
    let e := binade n d
    if e < -1022 then
      if roundHalfEven (n * 2 ^ 1074) d = 0 then some 0 else none
    else
      let m0 := if 52 ≤ e then roundHalfEven n (d * 2 ^ (e - 52).toNat)
        else roundHalfEven (n * 2 ^ (52 - e).toNat) d
      let m := if m0 = 2 ^ 53 then 2 ^ 52 else m0
      let e2 := if m0 = 2 ^ 53 then e + 1 else e
      if 1024 ≤ e2 then none
      else if 52 ≤ e2 then some (intWithSign sign (m * 2 ^ (e2 - 52).toNat))
      else if m % 2 ^ (52 - e2).toNat = 0 then
        some (intWithSign sign (m / 2 ^ (52 - e2).toNat))
      else none

/-- The value of one digit of a hex, octal or binary literal (`0-9`,
`a-f`, `A-F`, only below the radix), `none` otherwise. -/
def radixDigitVal (base : Nat) (c : Char) : Option Nat :=
  let v :=
    if 48 ≤ c.toNat ∧ c.toNat ≤ 57 then some (c.toNat - 48)
    else if 97 ≤ c.toNat ∧ c.toNat ≤ 102 then some (c.toNat - 87)
    else if 65 ≤ c.toNat ∧ c.toNat ≤ 70 then some (c.toNat - 55)
    else none
  match v with
  | some k => if k < base then some k else none
  | none => none

/-- The value of a nonempty digit string in the given radix, `none` on an
empty string or a stray character. -/
def radixVal (base : Nat) (ds : List Char) : Option Nat :=
  if ds = [] then none
  else
    ds.foldl (fun acc c =>
      match acc, radixDigitVal base c with
      | some a, some k => some (a * base + k)
      | _, _ => none) (some 0)

/-- The exponent tail of a decimal literal, as split off at the first
`e`/`E`: the empty tail means exponent `0`; the marker followed by an
optionally signed nonempty decimal digit string is that exponent; any
other tail is a syntax error (`NaN`). -/
def expPartVal : List Char → Option Int
  | [] => some 0
  | _ :: rest =>
    match rest with
    | '+' :: ds =>
      if ds ≠ [] ∧ ds.all Char.isDigit then some ((digitsVal ds : Int)) else none
    | '-' :: ds =>
      if ds ≠ [] ∧ ds.all Char.isDigit then some (-(digitsVal ds : Int)) else none
    | ds =>
      if ds ≠ [] ∧ ds.all Char.isDigit then some ((digitsVal ds : Int)) else none

/-- The binary64 integer outcome of a decimal literal whose mantissa digits
(point removed) have value `m`, with `f` digits after the point and
exponent `ex`: its exact value is `± m * 10 ^ (ex - f)`, handed as an
exact rational to the binary64 rounding. -/
def decimalValue (sign : Bool) (m : Nat) (f : Nat) (ex : Int) : Option Int :=
  let d := ex - (f : Int)
  if 0 ≤ d then roundNumber sign (m * 10 ^ d.toNat) 1
  else roundNumber sign m (10 ^ (-d).toNat)

/-- An ECMAScript StrUnsignedDecimalLiteral carrying the already-read sign:
`Infinity` (a valid conversion, but never an integer), or decimal digits
with an optional point, optional fraction digits and an optional
exponent — at least one mantissa digit required. -/
def jsDecLiteral (sign : Bool) (t : List Char) : Option Int :=
  if t = "Infinity".data then none
  else
    let mant := t.takeWhile (fun c => c ≠ 'e' ∧ c ≠ 'E')
    let etail := t.dropWhile (fun c => c ≠ 'e' ∧ c ≠ 'E')
    match expPartVal etail with
    | none => none
    | some ex =>
      let ip := mant.takeWhile Char.isDigit
      let frac := mant.dropWhile Char.isDigit
      match frac with
      | [] => if ip = [] then none else decimalValue sign (digitsVal ip) 0 ex
      | '.' :: fp =>
        if fp = [] then
          if ip = [] then none else decimalValue sign (digitsVal ip) 0 ex
        else if fp.all Char.isDigit then
          decimalValue sign (digitsVal (ip ++ fp)) fp.length ex
        else none
      | _ => none

/-- A trimmed, nonempty ECMAScript StrNumericLiteral: an unsigned
radix-prefixed (`0x`/`0X` hex, `0o`/`0O` octal, `0b`/`0B` binary) digit
string — the sign is not allowed on these — or an optionally signed
decimal literal. -/
def jsNumLiteral (t : List Char) : Option Int :=
  match t with
  | '0' :: 'x' :: ds => (radixVal 16 ds).bind (fun k => roundNumber false k 1)
  | '0' :: 'X' :: ds => (radixVal 16 ds).bind (fun k => roundNumber false k 1)
  | '0' :: 'o' :: ds => (radixVal 8 ds).bind (fun k => roundNumber false k 1)
  | '0' :: 'O' :: ds => (radixVal 8 ds).bind (fun k => roundNumber false k 1)
  | '0' :: 'b' :: ds => (radixVal 2 ds).bind (fun k => roundNumber false k 1)
  | '0' :: 'B' :: ds => (radixVal 2 ds).bind (fun k => roundNumber false k 1)
  | '+' :: rest => jsDecLiteral false rest
  | '-' :: rest => jsDecLiteral true rest
  | t => jsDecLiteral false t

/-- Models the composite `Number(inside)` / `Number.isInteger` test of
App.jsx 154-155: `some n` when the conversion yields a double passing
`isInteger` and `n` is its exact value, `none` when it yields `NaN`, an
infinity or a non-integral double.  `Number` trims the ECMAScript
whitespace set and converts the empty remainder to `0`; otherwise it reads
a StringNumericLiteral — an optionally signed decimal form with optional
fraction and exponent (`5.0` and `1e2` are the integers `5` and `100`), an
unsigned `0x`/`0o`/`0b` radix form (`0x10` is `16`), or `Infinity` — as an
exact rational and rounds it to the nearest binary64, the host's number
type.  `isInteger` then accepts exactly the finite integral doubles, so
rounding decides the borderline cases: `0.99999999999999999999` rounds to
the integer `1`, and every finite double of magnitude `2 ^ 53` or more is
integral.  (The decimal rendering of the resulting token inside the
resolver's path accumulator is exact below `10 ^ 21`, where the host also
renders integers in plain decimal.) -/
def jsIntOfChars (l : List Char) : Option Int :=
  match jsTrimList l with
  | [] => some 0
  | t => jsNumLiteral t

/-- Flushing the character buffer (App.jsx 148/150/162): a nonempty buffer
becomes a key token. -/
def pushBuf (buf : List Char) (ts : List Tok) : List Tok :=
  if buf.isEmpty then ts else Tok.str (String.mk buf) :: ts

/-- The scanning loop of `parsePath` (App.jsx 145-163) over the remaining
characters and the current buffer.  `none` is the early `return []` taken
on an unterminated bracket or non-integer bracket contents; the caller
collapses it into the empty token list. -/
def scan (l : List Char) (buf : List Char) : Option (List Tok) :=
  match l with
  | [] => some (pushBuf buf [])
  | c :: rest =>
    if c = '.' then (scan rest []).map (pushBuf buf)
    else if c = '[' then
      if hre : rest.dropWhile (fun x => x ≠ ']') = [] then none
      else
        match jsIntOfChars (rest.takeWhile (fun x => x ≠ ']')) with
        | none => none
        | some n =>
          (scan (rest.dropWhile (fun x => x ≠ ']')).tail []).map
            (fun ts => pushBuf buf (Tok.num n :: ts))
    else scan rest (buf ++ [c])
termination_by l.length
decreasing_by
  · simp
  · have h1 : (rest.dropWhile (fun x => x ≠ ']')).length ≤ rest.length :=
      (List.dropWhile_sublist _).length_le
    have h2 : (rest.dropWhile (fun x => x ≠ ']')).tail.length
        < (rest.dropWhile (fun x => x ≠ ']')).length := by
      cases hdw : rest.dropWhile (fun x => x ≠ ']') with
      | nil => exact absurd hdw hre
      | cons a t => simp
    simp at h1 h2 ⊢
    omega
  · simp

/-- The trim-and-strip preamble of `parsePath` (App.jsx 140-142): trim,
then strip one leading `$` and one leading `.`. -/
def stripLead (query : String) : List Char :=
  let l := jsTrimList query.data
  let l2 := match l with
    | '$' :: rest => rest
    | _ => l
  match l2 with
  | '.' :: rest => rest
  | _ => l2

/-- `parsePath` (App.jsx 138-164).  The source signals failure by an early
`return []`; here the scan returns `none` and the wrapper collapses it into
the same empty token list. -/
def parsePath (query : String) : List Tok :=
  if query = "" then []
  else
    match scan (stripLead query) [] with
    | none => []
    | some ts => ts

/-- First-match association lookup, modelling `cur[t]` on a plain object. -/
def lookupEntry : List (String × JsonValue) → String → Option JsonValue
  | [], _ => none
  | (k, w) :: rest, t => if k = t then some w else lookupEntry rest t

/-- The canonical-index own properties of an array. -/
def arrIndexProp : List JsonValue → Nat → String → Option JsonValue
  | [], _, _ => none
  | w :: rest, i, t => if Nat.repr i = t then some w else arrIndexProp rest (i + 1) t

/-- The own-property portion of the `t in cur` test and `cur[t]` access of
App.jsx 175-176: a plain object owns its keys; an array owns its canonical
index strings and `length` (whose value is the element count); `null` and
primitives own nothing (the `cur == null || typeof cur !== 'object'`
guard).  This is only part of the source's test: the `in` operator also
sees inherited prototype-chain properties (`toString` on every object,
`push` on arrays, ...), whose values are host objects outside the JSON
data model; own properties shadow them, and `findTokensJS` below carries
the inherited part as an explicit escape from the data level. -/
def getOwn (cur : JsonValue) (t : String) : Option JsonValue :=
  match cur with
  | .obj kvs => lookupEntry kvs t
  | .arr vs => if t = "length" then some (.num vs.length) else arrIndexProp vs 0 t
  | _ => none

/-- The walking loop of `findByPath` (App.jsx 169-179), carrying the
accumulated canonical path, restricted to the data level: a string token
that misses every own property maps to the not-found marker here, even
when it names an inherited prototype-chain property (on which the source
walks into a host object); `findTokensJS` below refines this with an
explicit escape outcome for that case. -/
def findTokens : JsonValue → String → List Tok → Option (JsonValue × String)
  | cur, path, [] => some (cur, path)
  | cur, path, .num t :: ts =>
    match cur with
    | .arr vs =>
      if t < 0 then none
      else
        match vs.get? t.toNat with
        | none => none
        | some w => findTokens w (path ++ "[" ++ Int.repr t ++ "]") ts
    | _ => none
  | cur, path, .str s :: ts =>
    match getOwn cur s with
    | none => none
    | some w => findTokens w (path ++ "." ++ s) ts

/-- `findByPath` (App.jsx 166-181): the path accumulator starts at `$`. -/
def findByPath (data : JsonValue) (tokens : List Tok) : Option (JsonValue × String) :=
  findTokens data "$" tokens

/-- The outcome of a `findByPath` walk, refined: a resolved JSON value with
its canonical path, the source's `return null`, or an escape from the JSON
data model — the walk stepped through `t in cur` into an inherited
prototype-chain property, after which the current value is a host object
(a function such as `toString` or `push`, or a prototype object) that JSON
cannot represent, and the rest of the walk depends on the host
environment's object graph rather than on the document. -/
inductive FindOutcome where
  | found (v : JsonValue) (path : String)
  | notFound
  | escapes

/-- The walking loop of `findByPath` (App.jsx 169-179) over the refined
outcome, parameterized by the inherited-property table `inh`: `inh a t`
says whether the string `t` names an inherited prototype-chain property of
a JSON value (`a` true for arrays, false for plain objects) — the part of
the `t in cur` test that depends on the engine and its library version,
not on the document.  An integer token needs an array with the index in
bounds — no `in` test is involved.  A string token on a non-null object or
array first consults the own properties (which shadow the prototype chain)
and descends on a hit; on a miss it escapes the data model when `inh`
holds the name and otherwise is the source's `return null`.  A string
token on `null` or a primitive fails the
`cur == null || typeof cur !== 'object'` guard. -/
def findTokensJS (inh : Bool → String → Bool) :
    JsonValue → String → List Tok → FindOutcome
  | cur, path, [] => .found cur path
  | cur, path, .num t :: ts =>
    match cur with
    | .arr vs =>
      if t < 0 then .notFound
      else
        match vs.get? t.toNat with
        | none => .notFound
        | some w => findTokensJS inh w (path ++ "[" ++ Int.repr t ++ "]") ts
    | _ => .notFound
  | cur, path, .str s :: ts =>
    match cur with
    | .obj kvs =>
      match lookupEntry kvs s with
      | some w => findTokensJS inh w (path ++ "." ++ s) ts
      | none => if inh false s then .escapes else .notFound
    | .arr vs =>
      match (if s = "length" then some (JsonValue.num (vs.length : Int))
          else arrIndexProp vs 0 s) with
      | some w => findTokensJS inh w (path ++ "." ++ s) ts
      | none => if inh true s then .escapes else .notFound
    | _ => .notFound

/-- `findByPath` over the refined outcome: accumulator starts at `$`. -/
def findByPathJS (inh : Bool → String → Bool) (data : JsonValue)
    (tokens : List Tok) : FindOutcome :=
  findTokensJS inh data "$" tokens

/-- C8: the query `$` (and likewise the empty query) parses to the empty
token list, and resolving the empty token list against any value succeeds
with exactly that value and canonical id `$`. -/
theorem resolve_root_roundtrip (v : JsonValue) :
    findByPath v (parsePath "$") = some (v, "$") ∧
    findByPath v (parsePath "") = some (v, "$") := by
  have hscan : scan [] [] = some [] := by rw [scan]; rfl
  have h1 : parsePath "$" = [] := by
    simp [parsePath, show stripLead "$" = [] from rfl, hscan]
  have h2 : parsePath "" = [] := by simp [parsePath]
  rw [h1, h2]
  exact ⟨rfl, rfl⟩

theorem lookupEntry_eq_lookup (kvs : List (String × JsonValue)) (t : String) :
    lookupEntry kvs t = List.lookup t kvs := by
  induction kvs with
  | nil => rfl
  | cons kv rest ih =>
    obtain ⟨k, w⟩ := kv
    rw [lookupEntry, List.lookup]
    by_cases h : k = t
    · subst h; simp
    · have hbeq : (t == k) = false := beq_eq_false_iff_ne.mpr (fun h' => h h'.symm)
      rw [if_neg h, hbeq]
      exact ih

theorem arrIndexProp_eq_some :
    ∀ (vs : List JsonValue) (j : Nat) (t : String) (w : JsonValue),
      arrIndexProp vs j t = some w ↔
        ∃ (i : Nat) (h : i < vs.length), t = Nat.repr (j + i) ∧ w = vs.get ⟨i, h⟩ := by
  intro vs
  induction vs with
  | nil =>
    intro j t w
    constructor
    · intro h; cases h
    · rintro ⟨i, hlt, _, _⟩; simp at hlt
  | cons w0 rest ih =>
    intro j t w
    rw [arrIndexProp]
    by_cases h : Nat.repr j = t
    · rw [if_pos h]
      constructor
      · intro hw
        refine ⟨0, by simp, by rw [← h, Nat.add_zero], ?_⟩
        rw [← Option.some.inj hw]
        rfl
      · rintro ⟨i, hlt, hi, hw⟩
        match i with
        | 0 => rw [hw]; rfl
        | i' + 1 =>
          exfalso
          rw [← h] at hi
          have h2 := nat_repr_injective hi
          omega
    · rw [if_neg h]
      rw [ih (j + 1) t w]
      constructor
      · rintro ⟨i', hlt, hi, hw⟩
        refine ⟨i' + 1, by simp; omega, ?_, ?_⟩
        · rw [hi]; congr 1; omega
        · rw [hw]; rfl
      · rintro ⟨i, hlt, hi, hw⟩
        match i with
        | 0 =>
          exfalso
          apply h
          rw [hi, Nat.add_zero]
        | i' + 1 =>
          have hlt' : i' < rest.length := by simp at hlt; omega
          refine ⟨i', hlt', ?_, ?_⟩
          · rw [hi]; congr 1; omega
          · rw [hw]; rfl

theorem repr_ne_length (i : Nat) : Nat.repr i ≠ "length" := by
  intro h
  have hd := repr_isDigit i
  rw [h] at hd
  have : ('l' : Char).isDigit = true := hd 'l' (by decide)
  exact absurd this (by decide)

/-- Modelled from the corrected claim: step-by-step path resolution.  A
string token requires the current value to be a non-null object or array
possessing the token as an own property (an object key; for arrays a
canonical index string or `length`), descending into it and appending
`.token`; an integer token requires an array with the index in bounds,
descending and appending `[token]`.  `suf` accumulates the canonical path
relative to the starting value. -/
inductive Resolves : JsonValue → List Tok → JsonValue → String → Prop where
  | nil (v : JsonValue) : Resolves v [] v ""
  | objKey {kvs : List (String × JsonValue)} {ts : List Tok} {v : JsonValue}
      {suf : String} (s : String) (w : JsonValue)
      (hw : List.lookup s kvs = some w) (h : Resolves w ts v suf) :
      Resolves (.obj kvs) (.str s :: ts) v ("." ++ s ++ suf)
  | arrKey {vs : List JsonValue} {ts : List Tok} {v : JsonValue} {suf : String}
      (s : String) (w : JsonValue)
      (hw : (∃ (i : Nat) (h : i < vs.length), s = Nat.repr i ∧ w = vs.get ⟨i, h⟩) ∨
        (s = "length" ∧ w = .num (vs.length : Int)))
      (h : Resolves w ts v suf) :
      Resolves (.arr vs) (.str s :: ts) v ("." ++ s ++ suf)
  | arrIdx {vs : List JsonValue} {ts : List Tok} {v : JsonValue} {suf : String}
      (t : Int) (ht : 0 ≤ t) (hlt : t.toNat < vs.length)
      (h : Resolves (vs.get ⟨t.toNat, hlt⟩) ts v suf) :
      Resolves (.arr vs) (.num t :: ts) v ("[" ++ Int.repr t ++ "]" ++ suf)

theorem findTokens_resolves (ts : List Tok) :
    ∀ (data : JsonValue) (path : String) (v : JsonValue) (p : String),
      findTokens data path ts = some (v, p) ↔
        ∃ suf, p = path ++ suf ∧ Resolves data ts v suf := by
  induction ts with
  | nil =>
    intro data path v p
    rw [findTokens]
    constructor
    · intro h
      cases Option.some.inj h
      exact ⟨"", (String.append_empty path).symm, Resolves.nil data⟩
    · rintro ⟨suf, hp, hr⟩
      cases hr
      rw [hp, String.append_empty]
  | cons t ts ih =>
    intro data path v p
    match t with
    | .num n =>
      cases data with
      | arr vs =>
        show (if n < 0 then none
          else match vs.get? n.toNat with
            | none => none
            | some w => findTokens w (path ++ "[" ++ Int.repr n ++ "]") ts)
            = some (v, p) ↔ _
        by_cases hneg : n < 0
        · rw [if_pos hneg]
          constructor
          · intro h; cases h
          · rintro ⟨suf, hp, hr⟩
            cases hr with
            | arrIdx _ ht hlt h => omega
        · rw [if_neg hneg]
          cases hg : vs.get? n.toNat with
          | none =>
            constructor
            · intro h; cases h
            · rintro ⟨suf, hp, hr⟩
              cases hr with
              | arrIdx _ ht hlt h =>
                rw [List.get?_eq_none] at hg
                omega
          | some w =>
            rw [ih]
            obtain ⟨hlt, hw⟩ := List.get?_eq_some.mp hg
            constructor
            · rintro ⟨suf', hp, hr⟩
              refine ⟨"[" ++ Int.repr n ++ "]" ++ suf', ?_,
                Resolves.arrIdx n (by omega) hlt (hw ▸ hr)⟩
              rw [hp]
              simp [String.append_assoc]
            · rintro ⟨suf, hp, hr⟩
              cases hr with
              | arrIdx t' ht hlt' h =>
                rename_i suf'
                refine ⟨suf', ?_, ?_⟩
                · rw [hp]
                  simp [String.append_assoc]
                · have hww : vs.get ⟨n.toNat, hlt'⟩ = w := hw
                  rw [hww] at h
                  exact h
      | null =>
        constructor
        · intro h; exact Option.noConfusion h
        · rintro ⟨suf, hp, hr⟩; cases hr
      | bool b =>
        constructor
        · intro h; exact Option.noConfusion h
        · rintro ⟨suf, hp, hr⟩; cases hr
      | num m =>
        constructor
        · intro h; exact Option.noConfusion h
        · rintro ⟨suf, hp, hr⟩; cases hr
      | str s =>
        constructor
        · intro h; exact Option.noConfusion h
        · rintro ⟨suf, hp, hr⟩; cases hr
      | obj kvs =>
        constructor
        · intro h; exact Option.noConfusion h
        · rintro ⟨suf, hp, hr⟩; cases hr
    | .str s =>
      cases data with
      | obj kvs =>
        show (match getOwn (.obj kvs) s with
          | none => none
          | some w => findTokens w (path ++ "." ++ s) ts) = some (v, p) ↔ _
        rw [show getOwn (.obj kvs) s = lookupEntry kvs s from rfl,
          lookupEntry_eq_lookup]
        cases hl : List.lookup s kvs with
        | none =>
          constructor
          · intro h; cases h
          · rintro ⟨suf, hp, hr⟩
            cases hr with
            | objKey _ w hw h => rw [hl] at hw; cases hw
        | some w =>
          rw [ih]
          constructor
          · rintro ⟨suf', hp, hr⟩
            refine ⟨"." ++ s ++ suf', ?_, Resolves.objKey s w hl hr⟩
            rw [hp]
            simp [String.append_assoc]
          · rintro ⟨suf, hp, hr⟩
            cases hr with
            | objKey _ w' hw h =>
              rw [hl] at hw
              have hww := Option.some.inj hw
              refine ⟨_, ?_, hww ▸ h⟩
              rw [hp]
              simp [String.append_assoc]
      | arr vs =>
        show (match getOwn (.arr vs) s with
          | none => none
          | some w => findTokens w (path ++ "." ++ s) ts) = some (v, p) ↔ _
        rw [show getOwn (.arr vs) s
          = (if s = "length" then some (.num (vs.length : Int))
              else arrIndexProp vs 0 s) from rfl]
        by_cases hlen : s = "length"
        · rw [if_pos hlen, ih]
          constructor
          · rintro ⟨suf', hp, hr⟩
            refine ⟨"." ++ s ++ suf', ?_,
              Resolves.arrKey s _ (Or.inr ⟨hlen, rfl⟩) hr⟩
            rw [hp]
            simp [String.append_assoc]
          · rintro ⟨suf, hp, hr⟩
            cases hr with
            | arrKey _ w hw h =>
              rcases hw with ⟨i, hi2, hi, hwi⟩ | ⟨_, hw2⟩
              · exact absurd (hlen ▸ hi).symm (repr_ne_length i)
              · refine ⟨_, ?_, hw2 ▸ h⟩
                rw [hp]
                simp [String.append_assoc]
        · rw [if_neg hlen]
          cases ha : arrIndexProp vs 0 s with
          | none =>
            constructor
            · intro h; cases h
            · rintro ⟨suf, hp, hr⟩
              cases hr with
              | arrKey _ w hw h =>
                rcases hw with ⟨i, hlt, hi, hwi⟩ | ⟨hl2, _⟩
                · have hsome : arrIndexProp vs 0 s = some (vs.get ⟨i, hlt⟩) :=
                    (arrIndexProp_eq_some vs 0 s (vs.get ⟨i, hlt⟩)).mpr
                      ⟨i, hlt, by rw [hi, Nat.zero_add], rfl⟩
                  rw [ha] at hsome
                  cases hsome
                · exact absurd hl2 hlen
          | some w =>
            rw [ih]
            constructor
            · rintro ⟨suf', hp, hr⟩
              obtain ⟨i, hlt, hi, hwi⟩ := (arrIndexProp_eq_some vs 0 s w).mp ha
              refine ⟨"." ++ s ++ suf', ?_,
                Resolves.arrKey s w
                  (Or.inl ⟨i, hlt, by rw [hi, Nat.zero_add], hwi⟩) hr⟩
              rw [hp]
              simp [String.append_assoc]
            · rintro ⟨suf, hp, hr⟩
              cases hr with
              | arrKey s2 w' hw h =>
                rename_i suf'
                rcases hw with ⟨i', hlt', hi', hwi'⟩ | ⟨hl2, _⟩
                · have hsome : arrIndexProp vs 0 s = some (vs.get ⟨i', hlt'⟩) :=
                    (arrIndexProp_eq_some vs 0 s (vs.get ⟨i', hlt'⟩)).mpr
                      ⟨i', hlt', by rw [hi', Nat.zero_add], rfl⟩
                  rw [ha] at hsome
                  have hww := Option.some.inj hsome
                  refine ⟨suf', ?_, ?_⟩
                  · rw [hp]
                    simp [String.append_assoc]
                  · rw [hwi', ← hww] at h
                    exact h
                · exact absurd hl2 hlen
      | null =>
        constructor
        · intro h; exact Option.noConfusion h
        · rintro ⟨suf, hp, hr⟩; cases hr
      | bool b =>
        constructor
        · intro h; exact Option.noConfusion h
        · rintro ⟨suf, hp, hr⟩; cases hr
      | num m =>
        constructor
        · intro h; exact Option.noConfusion h
        · rintro ⟨suf, hp, hr⟩; cases hr
      | str s' =>
        constructor
        · intro h; exact Option.noConfusion h
        · rintro ⟨suf, hp, hr⟩; cases hr

theorem findTokensJS_found_eq (inh : Bool → String → Bool) (ts : List Tok) :
    ∀ (cur : JsonValue) (path : String) (v : JsonValue) (p : String),
      findTokensJS inh cur path ts = .found v p ↔
        findTokens cur path ts = some (v, p) := by
  induction ts with
  | nil =>
    intro cur path v p
    rw [findTokensJS, findTokens]
    constructor
    · intro h
      injection h with h1 h2
      rw [h1, h2]
    · intro h
      cases Option.some.inj h
      rfl
  | cons t ts ih =>
    intro cur path v p
    match t with
    | .num n =>
      cases cur with
      | arr vs =>
        show (if n < 0 then FindOutcome.notFound
          else match vs.get? n.toNat with
            | none => FindOutcome.notFound
            | some w => findTokensJS inh w (path ++ "[" ++ Int.repr n ++ "]") ts)
            = FindOutcome.found v p ↔
          (if n < 0 then none
            else match vs.get? n.toNat with
              | none => none
              | some w => findTokens w (path ++ "[" ++ Int.repr n ++ "]") ts)
            = some (v, p)
        by_cases hneg : n < 0
        · rw [if_pos hneg, if_pos hneg]
          constructor
          · intro h; cases h
          · intro h; cases h
        · rw [if_neg hneg, if_neg hneg]
          cases hg : vs.get? n.toNat with
          | none =>
            constructor
            · intro h; cases h
            · intro h; cases h
          | some w => exact ih w (path ++ "[" ++ Int.repr n ++ "]") v p
      | null =>
        constructor
        · intro h; exact FindOutcome.noConfusion h
        · intro h; exact Option.noConfusion h
      | bool b =>
        constructor
        · intro h; exact FindOutcome.noConfusion h
        · intro h; exact Option.noConfusion h
      | num m =>
        constructor
        · intro h; exact FindOutcome.noConfusion h
        · intro h; exact Option.noConfusion h
      | str s' =>
        constructor
        · intro h; exact FindOutcome.noConfusion h
        · intro h; exact Option.noConfusion h
      | obj kvs =>
        constructor
        · intro h; exact FindOutcome.noConfusion h
        · intro h; exact Option.noConfusion h
    | .str s =>
      cases cur with
      | obj kvs =>
        show (match lookupEntry kvs s with
            | some w => findTokensJS inh w (path ++ "." ++ s) ts
            | none => if inh false s then FindOutcome.escapes
                else FindOutcome.notFound)
            = FindOutcome.found v p ↔
          (match getOwn (.obj kvs) s with
            | none => none
            | some w => findTokens w (path ++ "." ++ s) ts) = some (v, p)
        rw [show getOwn (.obj kvs) s = lookupEntry kvs s from rfl]
        cases hl : lookupEntry kvs s with
        | none =>
          show (if inh false s then FindOutcome.escapes else FindOutcome.notFound)
              = FindOutcome.found v p ↔
            (none : Option (JsonValue × String)) = some (v, p)
          constructor
          · intro h
            by_cases hb : inh false s
            · rw [if_pos hb] at h; cases h
            · rw [if_neg hb] at h; cases h
          · intro h; cases h
        | some w => exact ih w (path ++ "." ++ s) v p
      | arr vs =>
        show (match (if s = "length" then some (JsonValue.num (vs.length : Int))
              else arrIndexProp vs 0 s) with
            | some w => findTokensJS inh w (path ++ "." ++ s) ts
            | none => if inh true s then FindOutcome.escapes
                else FindOutcome.notFound)
            = FindOutcome.found v p ↔
          (match getOwn (.arr vs) s with
            | none => none
            | some w => findTokens w (path ++ "." ++ s) ts) = some (v, p)
        rw [show getOwn (.arr vs) s
          = (if s = "length" then some (.num (vs.length : Int))
              else arrIndexProp vs 0 s) from rfl]
        cases hg : (if s = "length" then some (JsonValue.num (vs.length : Int))
            else arrIndexProp vs 0 s) with
        | none =>
          show (if inh true s then FindOutcome.escapes else FindOutcome.notFound)
              = FindOutcome.found v p ↔
            (none : Option (JsonValue × String)) = some (v, p)
          constructor
          · intro h
            by_cases hb : inh true s
            · rw [if_pos hb] at h; cases h
            · rw [if_neg hb] at h; cases h
          · intro h; cases h
        | some w => exact ih w (path ++ "." ++ s) v p
      | null =>
        constructor
        · intro h; exact FindOutcome.noConfusion h
        · intro h; exact Option.noConfusion h
      | bool b =>
        constructor
        · intro h; exact FindOutcome.noConfusion h
        · intro h; exact Option.noConfusion h
      | num m =>
        constructor
        · intro h; exact FindOutcome.noConfusion h
        · intro h; exact Option.noConfusion h
      | str s' =>
        constructor
        · intro h; exact FindOutcome.noConfusion h
        · intro h; exact Option.noConfusion h

/-- C6 (amended): over the refined walk `findByPathJS` — which separates
the engine-dependent prototype-chain part of the source's `t in cur` test
into an explicit escape outcome — resolution reaches the data-level
success `found v p`, for every inherited-property table (in particular the
actual engine's), exactly when the token sequence resolves step by step
through own properties: a string token requires a non-null object or array
owning the property (an object key; for arrays a canonical index string or
`length`), appending `.token` to the path accumulated from `$`; an integer
token requires an array with the index in bounds, appending `[token]` —
the claim's restriction of string tokens to non-array objects is refuted
by the counterexample.  A data-level violation gives the not-found marker
with no partial result unless the token names an inherited prototype-chain
property (`toString`, `push`, ...), where the source walks into a host
object outside the JSON document and the model stops at the escape
outcome. -/
theorem findByPathJS_found_iff (inh : Bool → String → Bool) (data : JsonValue)
    (ts : List Tok) (v : JsonValue) (p : String) :
    findByPathJS inh data ts = .found v p ↔
      ∃ suf, p = "$" ++ suf ∧ Resolves data ts v suf :=
  (findTokensJS_found_eq inh ts data "$" v p).trans
    (findTokens_resolves ts data "$" v p)



/-- Counterexample to C6 as stated: a string token succeeding on an ARRAY.
The claim requires a string token to fail unless the current value is a
non-null, non-array object; the source only checks `typeof cur !== 'object'`,
which arrays pass, so the query token `"0"` resolves against `[1, 2]` to the
first element with path `$.0`. -/
theorem findByPath_string_token_on_array_cex :
    findByPath (.arr [.num 1, .num 2]) [.str "0"] = some (.num 1, "$.0") := rfl

/-- A bracket error somewhere in the scanned remainder: an unterminated `[`,
or bracket contents on which the `Number`/`isInteger` test fails.  This is
the condition under which the scanning loop of `parsePath` takes its early
`return []`. -/
def hasBracketError (l : List Char) : Bool :=
  match l with
  | [] => false
  | c :: rest =>
    if c = '[' then
      if rest.dropWhile (fun x => x ≠ ']') = [] then true
      else (jsIntOfChars (rest.takeWhile (fun x => x ≠ ']'))).isNone
        || hasBracketError (rest.dropWhile (fun x => x ≠ ']')).tail
    else hasBracketError rest
termination_by l.length
decreasing_by
  · rename_i hre
    have h1 : (rest.dropWhile (fun x => x ≠ ']')).length ≤ rest.length :=
      (List.dropWhile_sublist _).length_le
    have h2 : (rest.dropWhile (fun x => x ≠ ']')).tail.length
        < (rest.dropWhile (fun x => x ≠ ']')).length := by
      cases hdw : rest.dropWhile (fun x => x ≠ ']') with
      | nil => exact absurd hdw hre
      | cons a t => simp
    simp at h1 h2 ⊢
    omega
  · simp

theorem scan_none_iff :
    ∀ (l buf : List Char), scan l buf = none ↔ hasBracketError l = true := by
  intro l buf
  induction l, buf using scan.induct with
  | case1 buf =>
    rw [scan, hasBracketError]
    simp
  | case2 buf rest ih =>
    rw [scan, hasBracketError]
    simp [ih]
  | case3 buf rest hdw =>
    rw [scan, hasBracketError]
    rw [if_neg (by decide : ¬('[' = '.')), if_pos rfl, if_pos rfl, dif_pos hdw,
      if_pos hdw]
    simp
  | case4 buf rest hdw hji =>
    rw [scan, hasBracketError]
    rw [if_neg (by decide : ¬('[' = '.')), if_pos rfl, if_pos rfl, dif_neg hdw,
      if_neg hdw, hji]
    simp
  | case5 buf rest hdw n hji hne ih =>
    rw [scan, hasBracketError]
    rw [if_neg (by decide : ¬('[' = '.')), if_pos rfl, if_pos rfl, dif_neg hdw,
      if_neg hdw, hji]
    rw [Option.map_eq_none', Option.isNone_some, Bool.false_or]
    exact ih
  | case6 buf c rest hc hc2 ih =>
    rw [scan, hasBracketError]
    simp [hc, hc2, ih]

theorem pushBuf_eq_nil_iff (buf : List Char) (ts : List Tok) :
    pushBuf buf ts = [] ↔ buf.isEmpty = true ∧ ts = [] := by
  rw [pushBuf]
  by_cases hb : buf.isEmpty
  · simp [hb]
  · simp [hb]

theorem scan_some_empty_iff :
    ∀ (l buf : List Char) (ts : List Tok), scan l buf = some ts →
      (ts = [] ↔ buf.isEmpty = true ∧ l.all (fun c => c == '.') = true) := by
  intro l buf
  induction l, buf using scan.induct with
  | case1 buf =>
    intro ts h
    rw [scan] at h
    cases Option.some.inj h
    rw [pushBuf_eq_nil_iff]
    simp
  | case2 buf rest ih =>
    intro ts h
    rw [scan] at h
    simp only [if_pos rfl] at h
    obtain ⟨ts', hts', hmap⟩ := Option.map_eq_some'.mp h
    rw [← hmap, pushBuf_eq_nil_iff, ih ts' hts']
    simp
  | case3 buf rest hdw =>
    intro ts h
    rw [scan] at h
    rw [if_neg (by decide : ¬('[' = '.')), if_pos rfl, dif_pos hdw] at h
    cases h
  | case4 buf rest hdw hji =>
    intro ts h
    rw [scan] at h
    rw [if_neg (by decide : ¬('[' = '.')), if_pos rfl, dif_neg hdw, hji] at h
    exact Option.noConfusion h
  | case5 buf rest hdw n hji hne ih =>
    intro ts h
    rw [scan] at h
    simp only [if_neg (by decide : ¬('[' = '.')), if_pos rfl, dif_neg hdw, hji] at h
    obtain ⟨ts', hts', hmap⟩ := Option.map_eq_some'.mp h
    constructor
    · intro habs
      rw [← hmap, pushBuf_eq_nil_iff] at habs
      cases habs.2
    · intro habs
      simp at habs
  | case6 buf c rest hc hc2 ih =>
    intro ts h
    rw [scan] at h
    rw [if_neg hc, if_neg hc2] at h
    constructor
    · intro habs
      have := (ih ts h).mp habs
      simp at this
    · intro habs
      simp [hc] at habs

/-- C7 (amended): `parsePath` returns the empty token sequence exactly when
the query is the empty string, or the scanning loop hits a bracket error —
an unterminated `[`, or bracket contents whose `Number` conversion fails
the `isInteger` test, where empty or all-whitespace contents convert to
the valid integer `0` (so `"[]"` yields `[0]`, not the empty sequence) and
fractional, scientific and radix forms with integral binary64 value such
as `5.0`, `1e2` and `0x10` are the valid integers `5`, `100` and `16` —
or the remainder after trimming and stripping one leading `$` and one
leading `.` consists solely of `.` characters (in particular when it
reduces to nothing); and the empty token list passed to the resolver
selects the root, id `$`. -/
theorem parsePath_empty_characterization :
    (∀ q : String, parsePath q = [] ↔
      (q = "" ∨ hasBracketError (stripLead q) = true ∨
        (stripLead q).all (fun c => c == '.') = true)) ∧
    (∀ v : JsonValue, findByPath v [] = some (v, "$")) := by
  constructor
  · intro q
    by_cases hq : q = ""
    · simp [parsePath, hq]
    · rw [parsePath, if_neg hq]
      cases hscan : scan (stripLead q) [] with
      | none =>
        have hbe := (scan_none_iff (stripLead q) []).mp hscan
        exact iff_of_true rfl (Or.inr (Or.inl hbe))
      | some ts =>
        constructor
        · intro h
          exact Or.inr (Or.inr ((scan_some_empty_iff _ _ ts hscan).mp h).2)
        · rintro (h | h | h)
          · exact absurd h hq
          · have := (scan_none_iff (stripLead q) []).mpr h
            rw [hscan] at this
            cases this
          · exact (scan_some_empty_iff _ _ ts hscan).mpr ⟨rfl, h⟩
  · intro v
    rfl

/-- Counterexample to C7 as stated: the claim demands that `"[]"` (empty
bracket contents, not a valid integer per the claim) yield the empty token
sequence, but the host `Number('')` conversion yields the integer `0`, so
`parsePath "[]"` is the one-token sequence `[0]`.  Moreover `".."` — which
is nonempty, does not reduce to nothing under the single `$`/`.` strip
(one dot remains), and contains no bracket — also yields the empty
sequence, outside the claim's enumerated conditions. -/
theorem parsePath_brackets_cex :
    parsePath "[]" = [Tok.num 0] ∧ parsePath "[]" ≠ [] ∧
    parsePath ".." = [] ∧ stripLead ".." = ['.'] := by
  have h1 : scan ['[', ']'] [] = some [Tok.num 0] := by
    rw [scan]
    simp [jsIntOfChars, jsTrimList]
    rw [scan.eq_def]
    simp [pushBuf]
  have h2 : parsePath "[]" = [Tok.num 0] := by
    simp [parsePath, show stripLead "[]" = ['[', ']'] from rfl, h1]
  have h3 : scan ['.'] [] = some [] := by
    rw [scan]
    simp
    rw [scan.eq_def]
    simp [pushBuf]
  have h4 : parsePath ".." = [] := by
    simp [parsePath, show stripLead ".." = ['.'] from rfl, h3]
  exact ⟨h2, by rw [h2]; simp, h4, rfl⟩

/-- A key that contains neither `.` nor `[` — the characters the id scheme
uses as token openers. -/
def cleanKey (k : String) : Prop :=
  ∀ c ∈ k.data, c ≠ '.' ∧ c ≠ '['

mutual

/-- Every object reachable in the value has pairwise-distinct keys — true
of every value produced by the host JSON parser. -/
def NodupKeys : JsonValue → Prop
  | .obj kvs => (kvs.map Prod.fst).Nodup ∧ NodupKeysEntries kvs
  | .arr vs => NodupKeysElems vs
  | _ => True

def NodupKeysEntries : List (String × JsonValue) → Prop
  | [] => True
  | (_, w) :: rest => NodupKeys w ∧ NodupKeysEntries rest

def NodupKeysElems : List JsonValue → Prop
  | [] => True
  | w :: rest => NodupKeys w ∧ NodupKeysElems rest

end

/-- What may follow a complete token: nothing, or another token opener. -/
def OkTail (s : List Char) : Prop :=
  s = [] ∨ ∃ t, s = '.' :: t ∨ s = '[' :: t

theorem toks_okTail {P : String → Prop} {s : List Char} (h : Toks P s) : OkTail s := by
  cases hs : s with
  | nil => exact Or.inl rfl
  | cons c t =>
    rw [← hs]
    obtain ⟨t', ht'⟩ := toks_ne_nil_head h (by rw [hs]; simp)
    exact Or.inr ⟨t', ht'⟩

/-- Separation of dot tokens: clean keys followed by token tails concatenate
injectively. -/
theorem clean_key_sep :
    ∀ (k1 k2 s1 s2 : List Char),
      (∀ c ∈ k1, c ≠ '.' ∧ c ≠ '[') → (∀ c ∈ k2, c ≠ '.' ∧ c ≠ '[') →
      OkTail s1 → OkTail s2 → k1 ++ s1 = k2 ++ s2 → k1 = k2 ∧ s1 = s2 := by
  intro k1
  induction k1 with
  | nil =>
    intro k2 s1 s2 hc1 hc2 ht1 ht2 heq
    cases k2 with
    | nil => exact ⟨rfl, heq⟩
    | cons b k2' =>
      exfalso
      simp only [List.nil_append] at heq
      have hb := hc2 b (by simp)
      rcases ht1 with h | ⟨t, h | h⟩
      · rw [h] at heq; cases heq
      · rw [h] at heq
        have := (List.cons.injEq .. ▸ heq).1
        exact hb.1 this.symm
      · rw [h] at heq
        have := (List.cons.injEq .. ▸ heq).1
        exact hb.2 this.symm
  | cons a k1' ih =>
    intro k2 s1 s2 hc1 hc2 ht1 ht2 heq
    cases k2 with
    | nil =>
      exfalso
      simp only [List.nil_append] at heq
      have ha := hc1 a (by simp)
      rcases ht2 with h | ⟨t, h | h⟩
      · rw [h] at heq; cases heq
      · rw [h] at heq
        have := (List.cons.injEq .. ▸ heq).1
        exact ha.1 this
      · rw [h] at heq
        have := (List.cons.injEq .. ▸ heq).1
        exact ha.2 this
    | cons b k2' =>
      simp only [List.cons_append] at heq
      obtain ⟨hab, heq'⟩ := List.cons.injEq .. ▸ heq
      obtain ⟨hk, hs⟩ := ih k2' s1 s2
        (fun c hc => hc1 c (by simp [hc])) (fun c hc => hc2 c (by simp [hc]))
        ht1 ht2 heq'
      exact ⟨by rw [hab, hk], hs⟩

/-- Separation of bracket tokens: digit strings followed by `]` and a tail
concatenate injectively. -/
theorem digit_sep :
    ∀ (d1 d2 s1 s2 : List Char),
      (∀ c ∈ d1, c.isDigit = true) → (∀ c ∈ d2, c.isDigit = true) →
      d1 ++ ']' :: s1 = d2 ++ ']' :: s2 → d1 = d2 ∧ s1 = s2 := by
  intro d1
  induction d1 with
  | nil =>
    intro d2 s1 s2 hd1 hd2 heq
    cases d2 with
    | nil =>
      simp only [List.nil_append] at heq
      exact ⟨rfl, (List.cons.injEq .. ▸ heq).2⟩
    | cons b d2' =>
      exfalso
      simp only [List.nil_append, List.cons_append] at heq
      have hb := hd2 b (by simp)
      have := (List.cons.injEq .. ▸ heq).1
      rw [← this] at hb
      exact absurd hb (by decide)
  | cons a d1' ih =>
    intro d2 s1 s2 hd1 hd2 heq
    cases d2 with
    | nil =>
      exfalso
      simp only [List.nil_append, List.cons_append] at heq
      have ha := hd1 a (by simp)
      have := (List.cons.injEq .. ▸ heq).1
      rw [this] at ha
      exact absurd ha (by decide)
    | cons b d2' =>
      simp only [List.cons_append] at heq
      obtain ⟨hab, heq'⟩ := List.cons.injEq .. ▸ heq
      obtain ⟨hk, hs⟩ := ih d2' s1 s2
        (fun c hc => hd1 c (by simp [hc])) (fun c hc => hd2 c (by simp [hc])) heq'
      exact ⟨by rw [hab, hk], hs⟩

/-- Separation of dot tokens at the key level. -/
theorem dot_tok_sep {k1 k2 : String} {s1 s2 : List Char}
    (hc1 : cleanKey k1) (hc2 : cleanKey k2) (ht1 : OkTail s1) (ht2 : OkTail s2)
    (heq : '.' :: (k1.data ++ s1) = '.' :: (k2.data ++ s2)) :
    k1 = k2 ∧ s1 = s2 := by
  have heq' := (List.cons.injEq .. ▸ heq).2
  obtain ⟨hk, hs⟩ := clean_key_sep k1.data k2.data s1 s2 hc1 hc2 ht1 ht2 heq'
  exact ⟨String.ext hk, hs⟩

/-- Separation of bracket tokens at the index level. -/
theorem idx_tok_sep {i1 i2 : Nat} {s1 s2 : List Char}
    (heq : '[' :: ((Nat.repr i1).data ++ ']' :: s1)
      = '[' :: ((Nat.repr i2).data ++ ']' :: s2)) :
    i1 = i2 ∧ s1 = s2 := by
  have heq' := (List.cons.injEq .. ▸ heq).2
  obtain ⟨hk, hs⟩ := digit_sep (Nat.repr i1).data (Nat.repr i2).data s1 s2
    (repr_isDigit i1) (repr_isDigit i2) heq'
  exact ⟨nat_repr_injective (String.ext hk), hs⟩

/-- A dot token never equals a bracket token. -/
theorem dot_ne_idx_tok {k : String} {i : Nat} {s1 s2 : List Char}
    (heq : '.' :: (k.data ++ s1) = '[' :: ((Nat.repr i).data ++ ']' :: s2)) : False := by
  have := (List.cons.injEq .. ▸ heq).1
  cases this

theorem data_obj_child (path k : String) (s : List Char) :
    (path ++ "." ++ k).data ++ s = path.data ++ '.' :: (k.data ++ s) := by
  simp [String.data_append]

theorem data_arr_child (path : String) (i : Nat) (s : List Char) :
    (path ++ "[" ++ Nat.repr i ++ "]").data ++ s
      = path.data ++ '[' :: ((Nat.repr i).data ++ ']' :: s) := by
  simp [String.data_append]

theorem self_ne_append {l s : List Char} (hs : s ≠ []) : l ≠ l ++ s := by
  intro h
  have h2 := congrArg List.length h
  simp at h2
  exact hs h2

theorem entries_keys_clean :
    ∀ kvs, allKeysEntries cleanKey kvs → ∀ k ∈ kvs.map Prod.fst, cleanKey k := by
  intro kvs
  induction kvs with
  | nil => intro _ k hk; simp at hk
  | cons kv rest ih =>
    obtain ⟨k0, w0⟩ := kv
    intro hall k hk
    rw [allKeysEntries] at hall
    simp only [List.map_cons, List.mem_cons] at hk
    rcases hk with h | h
    · rw [h]; exact hall.1
    · exact ih hall.2.2 k h

/-- The ids in the subtree rooted at a freshly built node extend the node's
id by a token suffix. -/
theorem subnode_id_shape (P : String → Prop) (id0 k : String) (t : JKind)
    (w : JsonValue) (ht : t = detectType w) (hk : allKeys P w) :
    ∀ q ∈ subnodes (JNode.mk id0 k t w (buildChildren id0 w)),
      ∃ s, q.id.data = id0.data ++ s ∧ Toks P s := by
  intro q hq
  obtain ⟨s, hs, htok, _⟩ := id_suffix P (JNode.mk id0 k t w (buildChildren id0 w))
    ⟨rfl, ht⟩ hk q hq
  exact ⟨s, hs, htok⟩

/-- The ids strictly below a freshly built node extend the node's id by a
nonempty token suffix. -/
theorem subnodesList_children_suffix (P : String → Prop) (id0 : String)
    (w : JsonValue) (hk : allKeys P w) :
    ∀ q ∈ subnodesList (buildChildren id0 w),
      ∃ s, s ≠ [] ∧ Toks P s ∧ q.id.data = id0.data ++ s := by
  intro q hq
  obtain ⟨c, hc, hq'⟩ := mem_subnodesList.mp hq
  have hb : Built (JNode.mk id0 "" (detectType w) w (buildChildren id0 w)) := ⟨rfl, rfl⟩
  obtain ⟨⟨tok, hid, htne, htoks⟩, hbc, hkc⟩ :=
    child_token (n := JNode.mk id0 "" (detectType w) w (buildChildren id0 w)) hb hk hc
  obtain ⟨s', hs', htok', _⟩ := id_suffix P c hbc hkc q hq'
  refine ⟨tok ++ s', by simp [htne], htoks s' htok', ?_⟩
  rw [hs', hid]
  simp [List.append_assoc]

/-- Shape of the ids in the subtrees of object children: each extends the
parent path by a dot token built from one of the listed keys. -/
theorem subtree_ids_obj (path : String) :
    ∀ (kvs : List (String × JsonValue)), allKeysEntries cleanKey kvs →
      ∀ q ∈ subnodesList (buildObjChildren path kvs),
        ∃ (k2 : String) (s : List Char), k2 ∈ kvs.map Prod.fst ∧ cleanKey k2 ∧
          OkTail s ∧ q.id.data = path.data ++ '.' :: (k2.data ++ s) := by
  intro kvs
  induction kvs with
  | nil => intro _ q hq; simp [buildObjChildren, subnodesList] at hq
  | cons kv rest ih =>
    obtain ⟨k, w⟩ := kv
    intro hall q hq
    rw [allKeysEntries] at hall
    rw [buildObjChildren, subnodesList] at hq
    rcases List.mem_append.mp hq with h | h
    · obtain ⟨s, hs, htok⟩ := subnode_id_shape cleanKey (path ++ "." ++ k) k
        (detectType w) w rfl hall.2.1 q h
      refine ⟨k, s, by simp, hall.1, toks_okTail htok, ?_⟩
      rw [hs, data_obj_child]
    · obtain ⟨k2, s, hk2, hck2, hok, hid⟩ := ih hall.2.2 q h
      exact ⟨k2, s, by simp [List.mem_of_mem_tail]; right; simpa using hk2, hck2, hok, hid⟩

/-- Shape of the ids in the subtrees of array children: each extends the
parent path by a bracket token whose index is at least the starting
index. -/
theorem subtree_ids_arr (path : String) :
    ∀ (vs : List JsonValue) (i : Nat), allKeysElems cleanKey vs →
      ∀ q ∈ subnodesList (buildArrChildren path i vs),
        ∃ (j : Nat) (s : List Char), i ≤ j ∧ OkTail s ∧
          q.id.data = path.data ++ '[' :: ((Nat.repr j).data ++ ']' :: s) := by
  intro vs
  induction vs with
  | nil => intro i _ q hq; simp [buildArrChildren, subnodesList] at hq
  | cons w rest ih =>
    intro i hall q hq
    rw [allKeysElems] at hall
    rw [buildArrChildren, subnodesList] at hq
    rcases List.mem_append.mp hq with h | h
    · obtain ⟨s, hs, htok⟩ := subnode_id_shape cleanKey
        (path ++ "[" ++ Nat.repr i ++ "]") (Nat.repr i)
        (detectType w) w rfl hall.1 q h
      refine ⟨i, s, le_refl i, toks_okTail htok, ?_⟩
      rw [hs, data_arr_child]
    · obtain ⟨j, s, hij, hok, hid⟩ := ih (i + 1) hall.2 q h
      exact ⟨j, s, by omega, hok, hid⟩

theorem list_append_cancel {l s t : List Char} (h : l ++ s = l ++ t) : s = t := by
  induction l with
  | nil => exact h
  | cons a l ih => exact ih (List.cons.injEq .. ▸ h).2

mutual

theorem nodup_ids_buildChildren (path : String) (v : JsonValue)
    (hclean : allKeys cleanKey v) (hnd : NodupKeys v) :
    ((subnodesList (buildChildren path v)).map JNode.id).Nodup := by
  match v, hclean, hnd with
  | .obj kvs, hclean, hnd =>
    rw [buildChildren]
    rw [allKeys] at hclean
    rw [NodupKeys] at hnd
    exact nodup_ids_obj path kvs hclean hnd.2 hnd.1 (entries_keys_clean kvs hclean)
  | .arr vs, hclean, hnd =>
    rw [buildChildren]
    rw [allKeys] at hclean
    rw [NodupKeys] at hnd
    exact nodup_ids_arr path vs 0 hclean hnd
  | .null, _, _ => simp [buildChildren, subnodesList]
  | .bool b, _, _ => simp [buildChildren, subnodesList]
  | .num n, _, _ => simp [buildChildren, subnodesList]
  | .str s, _, _ => simp [buildChildren, subnodesList]
termination_by (sizeOf v, 0)

theorem nodup_ids_obj (path : String) (kvs : List (String × JsonValue))
    (hclean : allKeysEntries cleanKey kvs) (hnd : NodupKeysEntries kvs)
    (hkeys : (kvs.map Prod.fst).Nodup) (hkc : ∀ k ∈ kvs.map Prod.fst, cleanKey k) :
    ((subnodesList (buildObjChildren path kvs)).map JNode.id).Nodup := by
  match kvs, hclean, hnd, hkeys, hkc with
  | [], _, _, _, _ => simp [buildObjChildren, subnodesList]
  | (k, w) :: rest, hclean, hnd, hkeys, hkc =>
    rw [allKeysEntries] at hclean
    rw [NodupKeysEntries] at hnd
    rw [buildObjChildren, subnodesList, List.map_append]
    apply List.Nodup.append
    · exact nodup_ids_node (path ++ "." ++ k) k w hclean.2.1 hnd.1
    · refine nodup_ids_obj path rest hclean.2.2 hnd.2 ?_ ?_
      · simp only [List.map_cons, List.nodup_cons] at hkeys
        exact hkeys.2
      · intro k' hk'
        exact hkc k' (List.mem_cons_of_mem _ hk')
    · rw [List.disjoint_left]
      intro a ha hb
      obtain ⟨q1, hq1, hq1id⟩ := List.mem_map.mp ha
      obtain ⟨q2, hq2, hq2id⟩ := List.mem_map.mp hb
      obtain ⟨s1, hs1, htok1⟩ := subnode_id_shape cleanKey (path ++ "." ++ k) k
        (detectType w) w rfl hclean.2.1 q1 hq1
      obtain ⟨k2, s2, hk2, hck2, hok2, hid2⟩ :=
        subtree_ids_obj path rest hclean.2.2 q2 hq2
      have heq : q1.id.data = q2.id.data := by rw [hq1id, hq2id]
      rw [hs1, data_obj_child, hid2] at heq
      have heq2 := list_append_cancel heq
      obtain ⟨hkk, _⟩ := dot_tok_sep (hkc k (by simp)) hck2 (toks_okTail htok1)
        hok2 heq2
      rw [← hkk] at hk2
      simp only [List.map_cons, List.nodup_cons] at hkeys
      exact hkeys.1 hk2
termination_by (sizeOf kvs, 0)

theorem nodup_ids_arr (path : String) (vs : List JsonValue) (i : Nat)
    (hclean : allKeysElems cleanKey vs) (hnd : NodupKeysElems vs) :
    ((subnodesList (buildArrChildren path i vs)).map JNode.id).Nodup := by
  match vs, hclean, hnd with
  | [], _, _ => simp [buildArrChildren, subnodesList]
  | w :: rest, hclean, hnd =>
    rw [allKeysElems] at hclean
    rw [NodupKeysElems] at hnd
    rw [buildArrChildren, subnodesList, List.map_append]
    apply List.Nodup.append
    · exact nodup_ids_node (path ++ "[" ++ Nat.repr i ++ "]") (Nat.repr i) w
        hclean.1 hnd.1
    · exact nodup_ids_arr path rest (i + 1) hclean.2 hnd.2
    · rw [List.disjoint_left]
      intro a ha hb
      obtain ⟨q1, hq1, hq1id⟩ := List.mem_map.mp ha
      obtain ⟨q2, hq2, hq2id⟩ := List.mem_map.mp hb
      obtain ⟨s1, hs1, htok1⟩ := subnode_id_shape cleanKey
        (path ++ "[" ++ Nat.repr i ++ "]") (Nat.repr i)
        (detectType w) w rfl hclean.1 q1 hq1
      obtain ⟨j, s2, hij, hok2, hid2⟩ :=
        subtree_ids_arr path rest (i + 1) hclean.2 q2 hq2
      have heq : q1.id.data = q2.id.data := by rw [hq1id, hq2id]
      rw [hs1, data_arr_child, hid2] at heq
      have heq2 := list_append_cancel heq
      obtain ⟨hii, _⟩ := idx_tok_sep heq2
      omega
termination_by (sizeOf vs, 0)

theorem nodup_ids_node (id0 k : String) (w : JsonValue)
    (hclean : allKeys cleanKey w) (hnd : NodupKeys w) :
    ((subnodes (JNode.mk id0 k (detectType w) w (buildChildren id0 w))).map
      JNode.id).Nodup := by
  rw [subnodes]
  simp only [List.map_cons, List.nodup_cons, JNode.id]
  constructor
  · intro habs
    obtain ⟨q, hq, hqid⟩ := List.mem_map.mp habs
    obtain ⟨s, hsne, htok, hid⟩ :=
      subnodesList_children_suffix cleanKey id0 w hclean q hq
    have : id0.data = id0.data ++ s := by rw [← hid, hqid]
    exact self_ne_append hsne this
  · exact nodup_ids_buildChildren id0 w hclean hnd
termination_by (sizeOf w, 1)

end

theorem mem_buildObjChildren_shape (path : String) :
    ∀ (kvs : List (String × JsonValue)), ∀ c ∈ buildObjChildren path kvs,
      c.id = path ++ "." ++ c.key := by
  intro kvs
  induction kvs with
  | nil => intro c hc; simp [buildObjChildren] at hc
  | cons kv rest ih =>
    obtain ⟨k, w⟩ := kv
    intro c hc
    rw [buildObjChildren] at hc
    rcases List.mem_cons.mp hc with h | h
    · rw [h]; rfl
    · exact ih c h

theorem mem_buildArrChildren_shape (path : String) :
    ∀ (vs : List JsonValue) (i : Nat), ∀ c ∈ buildArrChildren path i vs,
      ∃ j : Nat, c.key = Nat.repr j ∧ c.id = path ++ "[" ++ Nat.repr j ++ "]" := by
  intro vs
  induction vs with
  | nil => intro i c hc; simp [buildArrChildren] at hc
  | cons w rest ih =>
    intro i c hc
    rw [buildArrChildren] at hc
    rcases List.mem_cons.mp hc with h | h
    · exact ⟨i, by rw [h]; rfl, by rw [h]; rfl⟩
    · exact ih (i + 1) c h

/-- C5 (amended): in every tree `buildTree` produces, each child's id is a
strict textual extension of its parent's id — parent id `++ "." ++ key` for
object children, parent id `++ "[" ++ index ++ "]"` for array children —
for all JSON values; and the ids are pairwise distinct across the whole
tree provided no object key contains a `.` or `[` character and each
object's keys are pairwise distinct (as host-language objects' always are).
For keys containing `.` or `[` distinctness fails, see the
counterexample. -/
theorem buildTree_ids :
    (∀ (v : JsonValue) (rk : String), ∀ n ∈ subnodes (buildTree v rk),
      ∀ c ∈ n.children,
        c.id = n.id ++ "." ++ c.key ∨
          ∃ i : Nat, c.key = Nat.repr i ∧ c.id = n.id ++ "[" ++ Nat.repr i ++ "]") ∧
    (∀ (v : JsonValue) (rk : String), allKeys cleanKey v → NodupKeys v →
      ((subnodes (buildTree v rk)).map JNode.id).Nodup) := by
  constructor
  · intro v rk n hn c hc
    have hb : Built n := subnodes_built _ (built_buildTree v rk) n hn
    rw [hb.1] at hc
    cases hv : n.value with
    | obj kvs =>
      rw [hv, buildChildren] at hc
      exact Or.inl (mem_buildObjChildren_shape n.id kvs c hc)
    | arr vs =>
      rw [hv, buildChildren] at hc
      exact Or.inr (mem_buildArrChildren_shape n.id vs 0 c hc)
    | null => rw [hv] at hc; simp [buildChildren] at hc
    | bool b => rw [hv] at hc; simp [buildChildren] at hc
    | num m => rw [hv] at hc; simp [buildChildren] at hc
    | str s => rw [hv] at hc; simp [buildChildren] at hc
  · intro v rk hclean hnd
    match v, hclean, hnd with
    | .obj [(k, w)], hclean, hnd =>
      rw [allKeys, allKeysEntries] at hclean
      rw [NodupKeys] at hnd
      rw [NodupKeysEntries] at hnd
      exact nodup_ids_node ("$." ++ k) k w hclean.2.1 hnd.2.1
    | .obj [], hclean, hnd =>
      exact nodup_ids_node "$" rk (.obj []) hclean hnd
    | .obj ((k1, w1) :: (k2, w2) :: rest), hclean, hnd =>
      exact nodup_ids_node "$" rk (.obj ((k1, w1) :: (k2, w2) :: rest)) hclean hnd
    | .arr vs, hclean, hnd =>
      exact nodup_ids_node "$" rk (.arr vs) hclean hnd
    | .null, hclean, hnd =>
      exact nodup_ids_node "$" rk .null hclean hnd
    | .bool b, hclean, hnd =>
      exact nodup_ids_node "$" rk (.bool b) hclean hnd
    | .num n, hclean, hnd =>
      exact nodup_ids_node "$" rk (.num n) hclean hnd
    | .str s, hclean, hnd =>
      exact nodup_ids_node "$" rk (.str s) hclean hnd

/-- Counterexample to C5 as stated: with an object key containing a dot,
two distinct locations render to the same id.  For the valid JSON document
`{"a.b": 1, "a": {"b": 1}}` (its two top-level keys are distinct, as the
host language requires) the tree's ids are `$`, `$.a.b`, `$.a`, `$.a.b` —
the top-level key `a.b` and the nested path `a`/`b` collide, so the ids
are not pairwise distinct. -/
theorem buildTree_ids_cex :
    ¬ (((subnodes (buildTree
        (.obj [("a.b", .num 1), ("a", .obj [("b", .num 1)])]) "root")).map
          JNode.id).Nodup) := by
  decide

/-- The document and first child used by the C5 witness. -/
def sampleDoc : JsonValue := .obj [("a", .num 1), ("b", .num 2)]

def sampleChildA : JNode := JNode.mk "$.a" "a" JKind.primitive (.num 1) []

/-- Witness for C5 (amended) at a concrete input: in the tree of
`{"a": 1, "b": 2}` the child `$.a` extends the root id `$` by `.a`, and all
ids are pairwise distinct. -/
theorem buildTree_ids_witness :
    (sampleChildA.id = (buildTree sampleDoc "root").id ++ "." ++ sampleChildA.key ∨
      ∃ i : Nat, sampleChildA.key = Nat.repr i ∧
        sampleChildA.id = (buildTree sampleDoc "root").id ++ "[" ++ Nat.repr i ++ "]") ∧
    ((subnodes (buildTree sampleDoc "root")).map JNode.id).Nodup := by
  constructor
  · exact buildTree_ids.1 sampleDoc "root" (buildTree sampleDoc "root")
      (self_mem_subnodes _) sampleChildA (List.Mem.head _)
  · apply buildTree_ids.2 sampleDoc "root"
    · rw [sampleDoc, allKeys, allKeysEntries, allKeysEntries, allKeysEntries]
      exact ⟨by unfold cleanKey; decide, by simp [allKeys],
        by unfold cleanKey; decide, by simp [allKeys], trivial⟩
    · rw [sampleDoc, NodupKeys, NodupKeysEntries, NodupKeysEntries, NodupKeysEntries]
      exact ⟨by decide, by simp [NodupKeys], by simp [NodupKeys], trivial⟩

end JsonViz
